import Mathlib

/-!
Verification of the DRAGONWIND simulation-orchestration core against its
natural-language specification.

The development shallowly embeds the relevant Python source
(`src/core/simulation_engine.py`, `src/core/monte_carlo.py`,
`src/modules/grid_integration/curtailment_analysis.py`) in Lean 4:

* nested configuration dictionaries become an inductive tree `ConfigV`
  (value semantics) and, where aliasing matters, an explicit heap of
  dictionary nodes (`Heap`) with an address-based `deepcopy`;
* numeric scalars (Python floats) are represented by `ℚ`; no floating-point
  arithmetic is verified — only control flow, data flow and ordering;
* fallible Python code (KeyError, TypeError, RuntimeError, ValueError)
  returns `Option`/`Except`;
* external numeric libraries (numpy sampling draws, scipy `pearsonr`)
  are oracles passed in as function parameters, mirroring the spec's
  treatment of them as external collaborators.
-/

namespace Dragonwind

/-- Scalar leaf value standing in for a Python numeric scalar. -/
abbrev PVal := ℚ

/-- Nested configuration value: either a scalar leaf or a mapping
(a Python `dict`, modelled as an insertion-ordered association list). -/
inductive ConfigV where
  | leaf : PVal → ConfigV
  | node : List (String × ConfigV) → ConfigV

/-- Lookup of a key in an insertion-ordered association list
(Python `d[k]` read; `none` models `KeyError`). -/
def lookupKey {β : Type} : List (String × β) → String → Option β
  | [], _ => none
  | (k', v) :: rest, k => if k' = k then some v else lookupKey rest k

/-- Assignment `d[k] = v` on a Python dict: overwrite in place if the key
exists (keeping its position), otherwise append the new key at the end. -/
def setKey {β : Type} : List (String × β) → String → β → List (String × β)
  | [], k, v => [(k, v)]
  | (k', v') :: rest, k, v =>
      if k' = k then (k, v) :: rest else (k', v') :: setKey rest k v

/-- Embeds `MonteCarloSimulation._get_nested_param`: walk the nested mapping
key by key (`result = result[key]`).  `none` models the `KeyError` raised on
a missing key (or the `TypeError` from subscripting a scalar). -/
def getNestedParam : ConfigV → List String → Option ConfigV
  | c, [] => some c
  | ConfigV.leaf _, _ :: _ => none
  | ConfigV.node es, k :: rest =>
      match lookupKey es k with
      | none => none
      | some v => getNestedParam v rest

/-- Embeds `MonteCarloSimulation._set_nested_param`: walk all but the last
key (`target = target[key]`, `none` on a missing key), then assign the final
key (`target[path[-1]] = value`, which creates the final key when absent).
The empty path models the `IndexError` of `path[-1]` on an empty list. -/
def setNestedParam : ConfigV → List String → PVal → Option ConfigV
  | _, [], _ => none
  | ConfigV.leaf _, _ :: _, _ => none
  | ConfigV.node es, [k], v => some (ConfigV.node (setKey es k (ConfigV.leaf v)))
  | ConfigV.node es, k :: k' :: rest, v =>
      match lookupKey es k with
      | none => none
      | some sub =>
          match setNestedParam sub (k' :: rest) v with
          | none => none
          | some sub' => some (ConfigV.node (setKey es k sub'))

theorem lookupKey_setKey_self {β : Type} (es : List (String × β)) (k : String) (v : β) :
    lookupKey (setKey es k v) k = some v := by
  induction es with
  | nil => simp [setKey, lookupKey]
  | cons e rest ih =>
      obtain ⟨k', v'⟩ := e
      by_cases h : k' = k
      · simp [setKey, h, lookupKey]
      · simp [setKey, h, lookupKey, ih]

/-- The set-then-get round trip: if walking the intermediate keys of `p`
reaches a mapping, then `setNestedParam` succeeds and `getNestedParam`
on the result returns the value just written. -/
theorem set_get_roundtrip (p : List String) (c : ConfigV) (v : PVal)
    (hp : p ≠ []) (es : List (String × ConfigV))
    (hmid : getNestedParam c p.dropLast = some (ConfigV.node es)) :
    ∃ c', setNestedParam c p v = some c' ∧
      getNestedParam c' p = some (ConfigV.leaf v) := by
  induction p generalizing c es with
  | nil => exact absurd rfl hp
  | cons k rest ih =>
      cases rest with
      | nil =>
          simp only [List.dropLast, getNestedParam] at hmid
          obtain rfl : c = ConfigV.node es := by
            cases hmid; rfl
          refine ⟨ConfigV.node (setKey es k (ConfigV.leaf v)), rfl, ?_⟩
          simp [getNestedParam, lookupKey_setKey_self]
      | cons k' rest' =>
          have hdl : (k :: k' :: rest').dropLast = k :: (k' :: rest').dropLast := rfl
          rw [hdl] at hmid
          cases c with
          | leaf q => simp [getNestedParam] at hmid
          | node es0 =>
              simp only [getNestedParam] at hmid
              cases hsub : lookupKey es0 k with
              | none => rw [hsub] at hmid; simp at hmid
              | some sub =>
                  rw [hsub] at hmid
                  obtain ⟨sub', hset, hget⟩ :=
                    ih sub (by simp) es hmid
                  refine ⟨ConfigV.node (setKey es0 k sub'), ?_, ?_⟩
                  · simp only [setNestedParam, hsub, hset]
                  · simp only [getNestedParam, lookupKey_setKey_self, hget]

/-- Characterization of when `setNestedParam` succeeds: exactly when the
path is non-empty and walking its intermediate keys reaches a mapping.
In particular a missing final key is not an error — `set` creates it. -/
theorem setNestedParam_succeeds_iff (c : ConfigV) (p : List String) (v : PVal) :
    (∃ c', setNestedParam c p v = some c') ↔
      p ≠ [] ∧ ∃ es, getNestedParam c p.dropLast = some (ConfigV.node es) := by
  constructor
  · rintro ⟨c', hc'⟩
    induction p generalizing c c' with
    | nil => simp [setNestedParam] at hc'
    | cons k rest ih =>
        refine ⟨by simp, ?_⟩
        cases rest with
        | nil =>
            cases c with
            | leaf q => simp [setNestedParam] at hc'
            | node es0 => exact ⟨es0, rfl⟩
        | cons k' rest' =>
            cases c with
            | leaf q => simp [setNestedParam] at hc'
            | node es0 =>
                simp only [setNestedParam] at hc'
                cases hsub : lookupKey es0 k with
                | none => rw [hsub] at hc'; simp at hc'
                | some sub =>
                    simp only [hsub] at hc'
                    cases hset : setNestedParam sub (k' :: rest') v with
                    | none => simp [hset] at hc'
                    | some sub' =>
                        obtain ⟨-, es, hes⟩ := ih sub sub' hset
                        refine ⟨es, ?_⟩
                        have hdl : (k :: k' :: rest').dropLast
                            = k :: (k' :: rest').dropLast := rfl
                        rw [hdl]
                        simpa [getNestedParam, hsub] using hes
  · rintro ⟨hp, es, hes⟩
    obtain ⟨c', hset, -⟩ := set_get_roundtrip p c v hp es hes
    exact ⟨c', hset⟩

/-- Claim C6 as stated is false: with cfg = \x7b"x": \x7b\x7d\x7d and path
["x","y"] the final key "y" is missing, `get` fails with a lookup error, yet
`set` succeeds and creates the final key instead of failing. -/
theorem set_missing_final_key_counterexample :
    getNestedParam (ConfigV.node [("x", ConfigV.node [])]) ["x", "y"] = none ∧
      setNestedParam (ConfigV.node [("x", ConfigV.node [])]) ["x", "y"] 42 =
        some (ConfigV.node [("x", ConfigV.node [("y", ConfigV.leaf 42)])]) :=
  ⟨rfl, rfl⟩

/-- Claim C6 (amended): when the path's intermediate keys exist, `set`
followed by `get` returns the value just written; and `set` succeeds exactly
when the path is non-empty and its intermediate walk reaches a mapping —
a missing intermediate key is an error (nothing is created, `set` returns
`none`), while a missing final key is created by `set` rather than
rejected. -/
theorem nested_param_roundtrip_and_failure (c : ConfigV) (p : List String) (v : PVal) :
    (∀ es, p ≠ [] → getNestedParam c p.dropLast = some (ConfigV.node es) →
      ∃ c', setNestedParam c p v = some c' ∧
        getNestedParam c' p = some (ConfigV.leaf v)) ∧
    ((∃ c', setNestedParam c p v = some c') ↔
      p ≠ [] ∧ ∃ es, getNestedParam c p.dropLast = some (ConfigV.node es)) :=
  ⟨fun es hp hes => set_get_roundtrip p c v hp es hes,
   setNestedParam_succeeds_iff c p v⟩

/-- Witness: the amended C6 theorem applied at a concrete configuration
\x7b"x": \x7b"y": \x7b"z": 0\x7d\x7d\x7d with path ["x","y","z"] and value 42. -/
theorem nested_param_roundtrip_witness :
    ∃ c', setNestedParam
        (ConfigV.node [("x", ConfigV.node [("y", ConfigV.node [("z", ConfigV.leaf 0)])])])
        ["x", "y", "z"] 42 = some c' ∧
      getNestedParam c' ["x", "y", "z"] = some (ConfigV.leaf 42) :=
  (nested_param_roundtrip_and_failure
      (ConfigV.node [("x", ConfigV.node [("y", ConfigV.node [("z", ConfigV.leaf 0)])])])
      ["x", "y", "z"] 42).1
    [("z", ConfigV.leaf 0)] (by simp) rfl

/-! ### Simulation engine lifecycle (`src/core/simulation_engine.py`)

`SimulationEngine.run` executes `_initialize_components`, then
`_run_simulation_loop`, then `_finalize_components`.  Components are
identified by their 0-based registration index; the observable behaviour of
a run is the sequence of lifecycle calls it makes. -/

/-- One lifecycle call made by the engine on component `c`. -/
inductive EngineEvent where
  | init (c : Nat)
  | step (c : Nat) (year : Int)
  | fin (c : Nat)
deriving DecidableEq

/-- Python `range(a, b)` over integers: `a, a+1, ..., b-1`, empty if `b ≤ a`. -/
def pyRange (a b : Int) : List Int :=
  (List.range (b - a).toNat).map (fun i => a + Int.ofNat i)

/-- Embeds `SimulationEngine._initialize_components`:
`for component in self.components: component.initialize()`. -/
def initComponentsTrace (n : Nat) : List EngineEvent :=
  (List.range n).map EngineEvent.init

/-- Embeds `SimulationEngine._run_simulation_loop`:
`for i, year in enumerate(range(self.start_year, self.end_year + 1)):`
`  for component in self.components: component.step(year)`. -/
def simulationLoopTrace (n : Nat) (startYear endYear : Int) : List EngineEvent :=
  (pyRange startYear (endYear + 1)).bind
    (fun y => (List.range n).map (fun c => EngineEvent.step c y))

/-- Embeds the per-component loop of `SimulationEngine._finalize_components`. -/
def finComponentsTrace (n : Nat) : List EngineEvent :=
  (List.range n).map EngineEvent.fin

/-- Embeds `SimulationEngine.run`: the three phases in order. -/
def engineRunTrace (n : Nat) (startYear endYear : Int) : List EngineEvent :=
  initComponentsTrace n ++ simulationLoopTrace n startYear endYear ++ finComponentsTrace n

/-- Modelled from the spec's words: the years "from start to end inclusive",
built by appending the final year to the years up to `endYear - 1`. -/
def specYears (startYear endYear : Int) : List Int :=
  if endYear < startYear then [] else specYears startYear (endYear - 1) ++ [endYear]
termination_by (endYear + 1 - startYear).toNat
decreasing_by omega

/-- Modelled from the spec's words (claim C3): initialize on c1..cn in
registration order, then for each year from start to end inclusive step on
c1..cn in registration order, then finalize on c1..cn in registration
order. -/
def specCallSequence (n : Nat) (startYear endYear : Int) : List EngineEvent :=
  (List.range n).map EngineEvent.init
    ++ (specYears startYear endYear).bind
        (fun y => (List.range n).map (fun c => EngineEvent.step c y))
    ++ (List.range n).map EngineEvent.fin

theorem pyRange_snoc (s e : Int) (h : s ≤ e) :
    pyRange s (e + 1) = pyRange s e ++ [e] := by
  unfold pyRange
  have h1 : (e + 1 - s).toNat = (e - s).toNat + 1 := by omega
  rw [h1, List.range_succ, List.map_append]
  simp only [List.map_cons, List.map_nil, List.append_cancel_left_eq,
    List.cons.injEq, and_true, Int.ofNat_eq_natCast]
  omega

theorem range_map_add_succ (idx k : Nat) :
    idx :: (List.range k).map (fun i => idx + 1 + i)
      = (List.range (k + 1)).map (fun i => idx + i) := by
  rw [List.range_succ_eq_map, List.map_cons, List.map_map]
  simp only [List.cons.injEq]
  refine ⟨by omega, ?_⟩
  apply List.map_congr_left
  intro i _
  simp only [Function.comp_apply, Nat.succ_eq_add_one]
  omega

theorem specYears_eq_pyRange (s e : Int) : specYears s e = pyRange s (e + 1) := by
  rw [specYears]
  by_cases h : e < s
  · have h0 : (e + 1 - s).toNat = 0 := by omega
    simp [h, pyRange, h0]
  · simp only [h, if_false]
    rw [specYears_eq_pyRange s (e - 1)]
    have h2 : (e - 1) + 1 = e := by ring
    rw [h2, pyRange_snoc s e (by omega)]
termination_by (e + 1 - s).toNat
decreasing_by omega

/-- Claim C3: for every engine with `n` registered components and years
start..end with end ≥ start, `run` produces exactly the call sequence:
initialize on every component in registration order; then for each year
from start to end inclusive, step on every component in registration order
(year-major, component-minor); then finalize on every component in
registration order. -/
theorem engine_run_call_sequence (n : Nat) (s e : Int) (_h : s ≤ e) :
    engineRunTrace n s e = specCallSequence n s e := by
  unfold engineRunTrace specCallSequence initComponentsTrace
    simulationLoopTrace finComponentsTrace
  rw [specYears_eq_pyRange]

/-- Witness: the C3 call-sequence theorem at two components over 2025-2026. -/
theorem engine_run_call_sequence_witness :
    engineRunTrace 2 2025 2026 = specCallSequence 2 2025 2026 :=
  engine_run_call_sequence 2 2025 2026 (by decide)

/-! ### Finalize failure policy (claim C4)

`_finalize_components` runs `for component in self.components:
component.finalize()` with no exception handling: the first exception
propagates at once.  A component's finalize behaviour is modelled by an
`Except String Unit` outcome; the run model returns the 0-based indices of
the components whose finalize was attempted, plus the propagated error. -/

/-- Embeds the finalize loop of `_finalize_components`: attempt each
component's finalize in registration order starting at index `idx`; an
exception propagates immediately, ending the loop. -/
def finalizeAttempts : Nat → List (Except String Unit) → List Nat × Option String
  | _, [] => ([], none)
  | idx, Except.ok _ :: rest =>
      let r := finalizeAttempts (idx + 1) rest
      (idx :: r.1, r.2)
  | idx, Except.error m :: _ => ([idx], some m)

/-- The finalize phase over all registered components. -/
def finalizeComponentsRun (outs : List (Except String Unit)) :
    List Nat × Option String :=
  finalizeAttempts 0 outs

theorem finalizeAttempts_all_ok (idx : Nat) (outs : List (Except String Unit))
    (h : ∀ o ∈ outs, o = Except.ok ()) :
    finalizeAttempts idx outs = ((List.range outs.length).map (idx + ·), none) := by
  induction outs generalizing idx with
  | nil => simp [finalizeAttempts]
  | cons o rest ih =>
      have ho : o = Except.ok () := h o (List.mem_cons_self o rest)
      subst ho
      have hr := ih (idx + 1) (fun o' ho' => h o' (List.mem_cons_of_mem _ ho'))
      simp only [finalizeAttempts, hr, List.length_cons, Prod.mk.injEq]
      exact ⟨range_map_add_succ idx rest.length, trivial⟩

theorem finalizeAttempts_first_error (idx : Nat) (pre : List (Except String Unit))
    (m : String) (suff : List (Except String Unit))
    (h : ∀ o ∈ pre, o = Except.ok ()) :
    finalizeAttempts idx (pre ++ Except.error m :: suff) =
      ((List.range (pre.length + 1)).map (idx + ·), some m) := by
  induction pre generalizing idx with
  | nil => simp [finalizeAttempts, List.range_succ]
  | cons o rest ih =>
      have ho : o = Except.ok () := h o (List.mem_cons_self o rest)
      subst ho
      have hr := ih (idx + 1) (fun o' ho' => h o' (List.mem_cons_of_mem _ ho'))
      simp only [List.cons_append, finalizeAttempts, List.append_eq, hr,
        List.length_cons, Prod.mk.injEq]
      exact ⟨range_map_add_succ idx (rest.length + 1), trivial⟩

/-- Claim C4 as stated is false: with two components whose finalize
outcomes are [raise "boom", succeed], the engine attempts finalize only on
component 0 and the exception propagates at once — the remaining
component 1 is never attempted, so the failure does not wait until all
components that could finalize have been attempted. -/
theorem finalize_stops_at_first_error_counterexample :
    finalizeComponentsRun [Except.error "boom", Except.ok ()] = ([0], some "boom") ∧
      1 ∉ (finalizeComponentsRun [Except.error "boom", Except.ok ()]).1 := by
  exact ⟨rfl, by decide⟩

/-- Claim C4 (amended): a finalize exception is fatal immediately — the
engine finalizes components in registration order up to and including the
first failing one, and components after it are never attempted; when no
finalize raises, every component is finalized. -/
theorem finalize_first_error_aborts (outs : List (Except String Unit)) :
    ((∀ o ∈ outs, o = Except.ok ()) →
      finalizeComponentsRun outs = (List.range outs.length, none)) ∧
    (∀ pre m suff, (∀ o ∈ pre, o = Except.ok ()) →
      outs = pre ++ Except.error m :: suff →
      finalizeComponentsRun outs = (List.range (pre.length + 1), some m)) := by
  constructor
  · intro h
    rw [finalizeComponentsRun, finalizeAttempts_all_ok 0 outs h]
    simp
  · intro pre m suff hpre houts
    rw [houts, finalizeComponentsRun, finalizeAttempts_first_error 0 pre m suff hpre]
    simp

/-- Witness: the amended C4 theorem at outcomes [ok, raise "x", ok] — the
attempted set is exactly \x7b0, 1\x7d. -/
theorem finalize_first_error_aborts_witness :
    finalizeComponentsRun [Except.ok (), Except.error "x", Except.ok ()] =
      (List.range 2, some "x") :=
  (finalize_first_error_aborts [Except.ok (), Except.error "x", Except.ok ()]).2
    [Except.ok ()] "x" [Except.ok ()] (by intro o ho; simpa using ho) rfl

/-! ### Cross-component dependency resolution (claim C5)

`GridIntegration.initialize` (curtailment_analysis.py) resolves its
dependency with `next(comp for comp in self.simulation_engine.components
if comp.name == "Renewable Capacity Expansion")`, raising a RuntimeError
naming the missing module on `StopIteration`.  Resolution runs during the
engine's init phase, i.e. after every `add_component` call, so the scanned
registry is the full registration list.  Components are modelled by their
registered name plus, for a dependent component, the name it looks up. -/

/-- A registered component: either plain, or one whose `initialize`
looks a sibling up by name (the `GridIntegration` pattern). -/
inductive CompSpec where
  | plain (name : String)
  | dependent (name : String) (target : String)
deriving DecidableEq

/-- The registered name of a component. -/
def CompSpec.regName : CompSpec → String
  | .plain n => n
  | .dependent n _ => n

/-- Embeds the `next(comp for comp in components if comp.name == target)`
lookup with its `StopIteration` handler.  The handler executes
`raise RuntimeError("... module not found.", flush=True)`, but builtin
exceptions reject keyword arguments, so constructing the RuntimeError
itself raises `TypeError: RuntimeError() takes no keyword arguments` —
THAT TypeError is the exception that propagates, not a descriptive
module-not-found error. -/
def resolveDep (components : List CompSpec) (target : String) :
    Except String CompSpec :=
  match components.find? (fun c => c.regName == target) with
  | some c => Except.ok c
  | none => Except.error "TypeError: RuntimeError() takes no keyword arguments"

/-- One component's `initialize` call: a dependent component resolves its
target against the full registry; failure propagates. -/
def initComponent (registry : List CompSpec) : CompSpec → Except String Unit
  | .plain _ => Except.ok ()
  | .dependent _ t =>
      match resolveDep registry t with
      | Except.ok _ => Except.ok ()
      | Except.error m => Except.error m

/-- Embeds `SimulationEngine._initialize_components` over the component
list: initialize in registration order, first exception propagates. -/
def initAllComponents (registry : List CompSpec) :
    List CompSpec → Except String Unit
  | [] => Except.ok ()
  | c :: rest =>
      match initComponent registry c with
      | Except.ok _ => initAllComponents registry rest
      | Except.error m => Except.error m

/-- The engine's init phase at `run()` time: every registered component is
initialized against the fully populated registry. -/
def initPhase (registry : List CompSpec) : Except String Unit :=
  initAllComponents registry registry

/-- Claim C5 as stated is false on both counts.  First, a dependent
component registered BEFORE its target still resolves it successfully,
because the whole registry is populated before `run()` is called — the
init phase succeeds rather than failing.  Second, even when the target is
registered nowhere at all, the failure is not a descriptive
dependency-not-found error: the handler's
`raise RuntimeError("...", flush=True)` itself fails, so what propagates
is `TypeError: RuntimeError() takes no keyword arguments`. -/
theorem dependent_before_target_counterexample :
    initPhase
        [CompSpec.dependent "Grid Integration" "Renewable Capacity Expansion",
         CompSpec.plain "Renewable Capacity Expansion"] = Except.ok () ∧
      initPhase [CompSpec.dependent "Grid Integration" "Renewable Capacity Expansion"] =
        Except.error "TypeError: RuntimeError() takes no keyword arguments" := by
  exact ⟨rfl, rfl⟩

theorem resolveDep_ok_iff (registry : List CompSpec) (t : String) :
    (∃ c, resolveDep registry t = Except.ok c) ↔
      ∃ c ∈ registry, c.regName = t := by
  unfold resolveDep
  cases hf : registry.find? (fun c => c.regName == t) with
  | none =>
      simp only [List.find?_eq_none, beq_iff_eq] at hf
      simp only [reduceCtorEq, exists_false, false_iff]
      rintro ⟨c, hc, hn⟩
      exact hf c hc hn
  | some c =>
      have hmem := List.mem_of_find?_eq_some hf
      have hp := List.find?_some hf
      simp only [beq_iff_eq] at hp
      simp only [Except.ok.injEq, exists_eq', true_iff]
      exact ⟨c, hmem, hp⟩

theorem initAllComponents_ok_iff (registry l : List CompSpec) :
    initAllComponents registry l = Except.ok () ↔
      ∀ n t, CompSpec.dependent n t ∈ l → ∃ c ∈ registry, c.regName = t := by
  induction l with
  | nil => simp [initAllComponents]
  | cons c rest ih =>
      unfold initAllComponents
      cases c with
      | plain nm =>
          simp only [initComponent, ih]
          constructor
          · intro h n t hmem
            rcases List.mem_cons.mp hmem with h1 | h1
            · exact absurd h1 (by simp)
            · exact h n t h1
          · intro h n t hmem
            exact h n t (List.mem_cons_of_mem _ hmem)
      | dependent nm tg =>
          cases hres : resolveDep registry tg with
          | ok c0 =>
              simp only [initComponent, hres, ih]
              constructor
              · intro h n t hmem
                rcases List.mem_cons.mp hmem with h1 | h1
                · injection h1 with h1n h1t
                  rw [h1t]
                  exact (resolveDep_ok_iff registry tg).mp ⟨c0, hres⟩
                · exact h n t h1
              · intro h n t hmem
                exact h n t (List.mem_cons_of_mem _ hmem)
          | error m =>
              simp only [initComponent, hres]
              constructor
              · intro h; exact absurd h (by simp)
              · intro h
                obtain ⟨c1, hc1, hn1⟩ :=
                  h nm tg (List.mem_cons_self _ _)
                obtain ⟨c2, hc2⟩ :=
                  (resolveDep_ok_iff registry tg).mpr ⟨c1, hc1, hn1⟩
                rw [hc2] at hres
                exact absurd hres (by simp)

theorem initAllComponents_error_shape (registry l : List CompSpec) (m : String)
    (h : initAllComponents registry l = Except.error m) :
    m = "TypeError: RuntimeError() takes no keyword arguments" := by
  induction l with
  | nil => simp [initAllComponents] at h
  | cons c rest ih =>
      unfold initAllComponents at h
      cases c with
      | plain nm => exact ih (by simpa [initComponent] using h)
      | dependent nm tg =>
          cases hres : resolveDep registry tg with
          | ok c0 =>
              rw [initComponent, hres] at h
              exact ih h
          | error m' =>
              rw [initComponent, hres] at h
              cases h
              unfold resolveDep at hres
              cases hf : registry.find? (fun c => c.regName == tg) with
              | none => rw [hf] at hres; cases hres; rfl
              | some c1 => rw [hf] at hres; cases hres

/-- Claim C5 (amended): a dependent component resolves its target by a
linear scan of the fully populated registry, so resolution succeeds
whenever a component with the target name is registered anywhere in the
engine — before OR after the dependent one.  When no component with the
target name is registered at all, the init phase still fails fast, but
NOT with a descriptive dependency-not-found error: the handler's
`raise RuntimeError(msg, flush=True)` itself fails because builtin
exceptions reject keyword arguments, so the propagated exception is
`TypeError: RuntimeError() takes no keyword arguments`. -/
theorem dependency_resolution_registry_wide (registry : List CompSpec) :
    (initPhase registry = Except.ok () ↔
      ∀ n t, CompSpec.dependent n t ∈ registry →
        ∃ c ∈ registry, c.regName = t) ∧
    (∀ n t, CompSpec.dependent n t ∈ registry →
      (∀ c ∈ registry, c.regName ≠ t) →
      initPhase registry =
        Except.error "TypeError: RuntimeError() takes no keyword arguments") := by
  refine ⟨initAllComponents_ok_iff registry registry, ?_⟩
  intro n t hmem habs
  cases hrun : initPhase registry with
  | ok u =>
      obtain ⟨u⟩ := u
      obtain ⟨c, hc, hn⟩ :=
        (initAllComponents_ok_iff registry registry).mp hrun n t hmem
      exact absurd hn (habs c hc)
  | error m =>
      rw [initAllComponents_error_shape registry registry m hrun]

/-- Witness: the amended C5 theorem on a registry where the dependent
component precedes its target (init phase succeeds), and on one where the
target is absent entirely (init phase fails with the TypeError). -/
theorem dependency_resolution_registry_wide_witness :
    initPhase [CompSpec.dependent "B" "A", CompSpec.plain "A"] = Except.ok () ∧
      initPhase [CompSpec.dependent "B" "A"] =
        Except.error "TypeError: RuntimeError() takes no keyword arguments" :=
  ⟨(dependency_resolution_registry_wide
      [CompSpec.dependent "B" "A", CompSpec.plain "A"]).1.mpr
    (by
      intro n t hmem
      rcases List.mem_cons.mp hmem with h1 | h1
      · injection h1 with h1n h1t
        rw [h1t]
        exact ⟨CompSpec.plain "A", by simp, rfl⟩
      · rcases List.mem_cons.mp h1 with h2 | h2
        · exact absurd h2 (by simp)
        · exact absurd h2 (by simp)),
   (dependency_resolution_registry_wide [CompSpec.dependent "B" "A"]).2 "B" "A"
     (List.mem_cons_self _ _) (by decide)⟩

/-! ### Parameter distributions (`ParameterDistribution.sample`)

The numpy draw primitives are external collaborators, modelled by an
oracle `Rng`; only the control flow of `sample` (which draw is used, with
which parameters and defaults, and which inputs raise) is embedded. -/

/-- A value stored in a distribution's `params` dict: a numeric scalar or
a list of candidate values. -/
inductive DistEntry where
  | num : ℚ → DistEntry
  | vals : List ℚ → DistEntry
deriving DecidableEq

/-- Embeds the `ParameterDistribution` dataclass. -/
structure ParameterDistribution where
  param_path : List String
  distribution : String
  params : List (String × DistEntry)
deriving DecidableEq

/-- Python `self.params.get(key, default)` for a numeric parameter. -/
def getNumParam (params : List (String × DistEntry)) (k : String) (d : ℚ) : ℚ :=
  match lookupKey params k with
  | some (DistEntry.num q) => q
  | _ => d

/-- Python `self.params.get("values", [])`. -/
def getValsParam (params : List (String × DistEntry)) (k : String) : List ℚ :=
  match lookupKey params k with
  | some (DistEntry.vals l) => l
  | _ => []

/-- Python `self.params.get("probabilities", None)`. -/
def getProbsParam (params : List (String × DistEntry)) : Option (List ℚ) :=
  match lookupKey params "probabilities" with
  | some (DistEntry.vals l) => some l
  | _ => none

/-- Oracle for the numpy random draws used by `sample`. -/
structure Rng where
  normal : ℚ → ℚ → ℚ
  uniform : ℚ → ℚ → ℚ
  triangular : ℚ → ℚ → ℚ → ℚ
  choice : List ℚ → Option (List ℚ) → ℚ

/-- Embeds `ParameterDistribution.sample`: dispatch on the distribution
kind with `params.get` defaults (mean 0, std 1, low 0, high 1, mode 0.5);
`ValueError` on a discrete distribution without values and on an unknown
kind.  The discrete branch calls `np.random.choice(values, p=probs)`,
which itself validates an explicit probability vector before drawing: it
raises `ValueError` when `p` differs from `values` in size, contains a
negative entry, or does not sum to 1 (numpy checks the float sum within a
tolerance; over the exact rationals of this model the check is exact) —
these exceptions propagate out of `sample`.  The error strings follow
numpy; the descriptive texts are representative. -/
def ParameterDistribution.sample (d : ParameterDistribution) (rng : Rng) :
    Except String ℚ :=
  if d.distribution = "normal" then
    Except.ok (rng.normal (getNumParam d.params "mean" 0) (getNumParam d.params "std" 1))
  else if d.distribution = "uniform" then
    Except.ok (rng.uniform (getNumParam d.params "low" 0) (getNumParam d.params "high" 1))
  else if d.distribution = "triangular" then
    Except.ok (rng.triangular (getNumParam d.params "low" 0)
      (getNumParam d.params "mode" (1 / 2)) (getNumParam d.params "high" 1))
  else if d.distribution = "discrete" then
    let values := getValsParam d.params "values"
    if values = [] then
      Except.error "Discrete distribution must specify 'values'"
    else
      match getProbsParam d.params with
      | none => Except.ok (rng.choice values none)
      | some probs =>
          if probs.length ≠ values.length then
            Except.error "a and p must have same size"
          else if ∃ x ∈ probs, x < 0 then
            Except.error "probabilities are not non-negative"
          else if probs.sum ≠ 1 then
            Except.error "probabilities do not sum to 1"
          else
            Except.ok (rng.choice values (some probs))
  else
    Except.error ("Unknown distribution: " ++ d.distribution)

/-- A concrete deterministic draw oracle used for closed evaluations. -/
def rngZero : Rng where
  normal := fun m _ => m
  uniform := fun lo _ => lo
  triangular := fun lo _ _ => lo
  choice := fun v _ => v.headD 0

/-- Claim C8 as stated is false: a normal distribution with an entirely
missing parameter set is malformed by the claim's terms, yet `sample`
succeeds, silently defaulting mean to 0 and std to 1 instead of raising a
configuration error. -/
theorem sample_silent_default_counterexample :
    ParameterDistribution.sample ⟨["p"], "normal", []⟩ rngZero = Except.ok 0 := rfl

/-- Claim C8 (amended): `sample` fails with an error exactly for an
unrecognized distribution kind, for a discrete distribution without a
candidate value set, and for a discrete distribution whose explicit
probabilities differ in length from the values, contain a negative entry,
or do not sum to 1 (`ValueError` raised inside `np.random.choice` and
propagated); missing numeric parameters of normal, uniform and triangular
are NOT errors — they are silently defaulted (mean 0, std 1, low 0,
high 1, mode 0.5).  The first conjunct is the exact success
characterization; the rest name each failure's error and each kind's
defaulted draw. -/
theorem sample_failure_modes (d : ParameterDistribution) (rng : Rng) :
    ((∃ q, d.sample rng = Except.ok q) ↔
      (d.distribution = "normal" ∨ d.distribution = "uniform" ∨
        d.distribution = "triangular" ∨
        (d.distribution = "discrete" ∧ getValsParam d.params "values" ≠ [] ∧
          ∀ probs, getProbsParam d.params = some probs →
            probs.length = (getValsParam d.params "values").length ∧
            (∀ x ∈ probs, 0 ≤ x) ∧ probs.sum = 1))) ∧
    (d.distribution ∉ (["normal", "uniform", "triangular", "discrete"] : List String) →
      d.sample rng = Except.error ("Unknown distribution: " ++ d.distribution)) ∧
    (d.distribution = "discrete" → getValsParam d.params "values" = [] →
      d.sample rng = Except.error "Discrete distribution must specify 'values'") ∧
    (d.distribution = "discrete" → ∀ probs,
      getValsParam d.params "values" ≠ [] →
      getProbsParam d.params = some probs →
      probs.length ≠ (getValsParam d.params "values").length →
      d.sample rng = Except.error "a and p must have same size") ∧
    (d.distribution = "discrete" → ∀ probs,
      getValsParam d.params "values" ≠ [] →
      getProbsParam d.params = some probs →
      probs.length = (getValsParam d.params "values").length →
      (∃ x ∈ probs, x < 0) →
      d.sample rng = Except.error "probabilities are not non-negative") ∧
    (d.distribution = "discrete" → ∀ probs,
      getValsParam d.params "values" ≠ [] →
      getProbsParam d.params = some probs →
      probs.length = (getValsParam d.params "values").length →
      ¬(∃ x ∈ probs, x < 0) →
      probs.sum ≠ 1 →
      d.sample rng = Except.error "probabilities do not sum to 1") ∧
    (d.distribution = "normal" →
      d.sample rng = Except.ok (rng.normal (getNumParam d.params "mean" 0)
        (getNumParam d.params "std" 1))) ∧
    (d.distribution = "uniform" →
      d.sample rng = Except.ok (rng.uniform (getNumParam d.params "low" 0)
        (getNumParam d.params "high" 1))) ∧
    (d.distribution = "triangular" →
      d.sample rng = Except.ok (rng.triangular (getNumParam d.params "low" 0)
        (getNumParam d.params "mode" (1 / 2)) (getNumParam d.params "high" 1))) := by
  by_cases hn : d.distribution = "normal"
  · have hs : d.sample rng = Except.ok (rng.normal (getNumParam d.params "mean" 0)
        (getNumParam d.params "std" 1)) := by
      simp [ParameterDistribution.sample, hn]
    refine ⟨?_, ?_, ?_, ?_, ?_, ?_, fun _ => hs, ?_, ?_⟩
    · rw [hs]; simp [hn]
    · intro hmem; exact absurd (by rw [hn]; decide) hmem
    · intro hd; rw [hn] at hd; exact absurd hd (by decide)
    · intro hd; rw [hn] at hd; exact absurd hd (by decide)
    · intro hd; rw [hn] at hd; exact absurd hd (by decide)
    · intro hd; rw [hn] at hd; exact absurd hd (by decide)
    · intro hu; rw [hn] at hu; exact absurd hu (by decide)
    · intro ht; rw [hn] at ht; exact absurd ht (by decide)
  by_cases hu : d.distribution = "uniform"
  · have hs : d.sample rng = Except.ok (rng.uniform (getNumParam d.params "low" 0)
        (getNumParam d.params "high" 1)) := by
      simp [ParameterDistribution.sample, hn, hu]
    refine ⟨?_, ?_, ?_, ?_, ?_, ?_, ?_, fun _ => hs, ?_⟩
    · rw [hs]; simp [hu]
    · intro hmem; exact absurd (by rw [hu]; decide) hmem
    · intro hd; rw [hu] at hd; exact absurd hd (by decide)
    · intro hd; rw [hu] at hd; exact absurd hd (by decide)
    · intro hd; rw [hu] at hd; exact absurd hd (by decide)
    · intro hd; rw [hu] at hd; exact absurd hd (by decide)
    · intro hnn; exact absurd hnn hn
    · intro ht; rw [hu] at ht; exact absurd ht (by decide)
  by_cases ht : d.distribution = "triangular"
  · have hs : d.sample rng = Except.ok (rng.triangular (getNumParam d.params "low" 0)
        (getNumParam d.params "mode" (1 / 2)) (getNumParam d.params "high" 1)) := by
      simp [ParameterDistribution.sample, hn, hu, ht]
    refine ⟨?_, ?_, ?_, ?_, ?_, ?_, ?_, ?_, fun _ => hs⟩
    · rw [hs]; simp [ht]
    · intro hmem; exact absurd (by rw [ht]; decide) hmem
    · intro hd; rw [ht] at hd; exact absurd hd (by decide)
    · intro hd; rw [ht] at hd; exact absurd hd (by decide)
    · intro hd; rw [ht] at hd; exact absurd hd (by decide)
    · intro hd; rw [ht] at hd; exact absurd hd (by decide)
    · intro hnn; exact absurd hnn hn
    · intro huu; exact absurd huu hu
  by_cases hd : d.distribution = "discrete"
  · by_cases hv : getValsParam d.params "values" = []
    · have hs : d.sample rng =
          Except.error "Discrete distribution must specify 'values'" := by
        simp [ParameterDistribution.sample, hn, hu, ht, hd, hv]
      refine ⟨?_, ?_, fun _ _ => hs, ?_, ?_, ?_, ?_, ?_, ?_⟩
      · rw [hs]
        constructor
        · rintro ⟨q, hq⟩; cases hq
        · rintro (h | h | h | ⟨-, hne, -⟩)
          · exact absurd h hn
          · exact absurd h hu
          · exact absurd h ht
          · exact absurd hv hne
      · intro hmem; exact absurd (by rw [hd]; decide) hmem
      · intro _ probs hne _ _; exact absurd hv hne
      · intro _ probs hne _ _ _; exact absurd hv hne
      · intro _ probs hne _ _ _ _; exact absurd hv hne
      · intro hnn; exact absurd hnn hn
      · intro huu; exact absurd huu hu
      · intro htt; exact absurd htt ht
    · cases hp : getProbsParam d.params with
      | none =>
          have hs : d.sample rng =
              Except.ok (rng.choice (getValsParam d.params "values") none) := by
            simp [ParameterDistribution.sample, hn, hu, ht, hd, hv, hp]
          refine ⟨?_, ?_, ?_, ?_, ?_, ?_, ?_, ?_, ?_⟩
          · constructor
            · intro _
              refine Or.inr (Or.inr (Or.inr ⟨hd, hv, ?_⟩))
              intro probs hpe
              cases hpe
            · intro _
              exact ⟨_, hs⟩
          · intro hmem; exact absurd (by rw [hd]; decide) hmem
          · intro _ hv'; exact absurd hv' hv
          · intro _ probs _ hpe _; cases hpe
          · intro _ probs _ hpe _ _; cases hpe
          · intro _ probs _ hpe _ _ _; cases hpe
          · intro hnn; exact absurd hnn hn
          · intro huu; exact absurd huu hu
          · intro htt; exact absurd htt ht
      | some pl =>
          by_cases hlen : pl.length = (getValsParam d.params "values").length
          · by_cases hneg : ∃ x ∈ pl, x < 0
            · have hs : d.sample rng =
                  Except.error "probabilities are not non-negative" := by
                simp [ParameterDistribution.sample, hn, hu, ht, hd, hv, hp, hlen, hneg]
              refine ⟨?_, ?_, ?_, ?_, ?_, ?_, ?_, ?_, ?_⟩
              · rw [hs]
                constructor
                · rintro ⟨q, hq⟩; cases hq
                · rintro (h | h | h | ⟨-, -, H⟩)
                  · exact absurd h hn
                  · exact absurd h hu
                  · exact absurd h ht
                  · obtain ⟨x, hx, hlt⟩ := hneg
                    exact absurd hlt (not_lt.mpr ((H pl rfl).2.1 x hx))
              · intro hmem; exact absurd (by rw [hd]; decide) hmem
              · intro _ hv'; exact absurd hv' hv
              · intro _ probs _ hpe hlen'
                injection hpe with hpe
                subst hpe
                exact absurd hlen hlen'
              · intro _ probs _ hpe _ _
                exact hs
              · intro _ probs _ hpe _ hnoneg _
                injection hpe with hpe
                subst hpe
                exact absurd hneg hnoneg
              · intro hnn; exact absurd hnn hn
              · intro huu; exact absurd huu hu
              · intro htt; exact absurd htt ht
            · by_cases hsum : pl.sum = 1
              · have hs : d.sample rng =
                    Except.ok (rng.choice (getValsParam d.params "values") (some pl)) := by
                  simp [ParameterDistribution.sample, hn, hu, ht, hd, hv, hp, hlen,
                    hneg, hsum]
                refine ⟨?_, ?_, ?_, ?_, ?_, ?_, ?_, ?_, ?_⟩
                · constructor
                  · intro _
                    refine Or.inr (Or.inr (Or.inr ⟨hd, hv, ?_⟩))
                    intro probs hpe
                    injection hpe with hpe
                    subst hpe
                    exact ⟨hlen,
                      fun x hx => le_of_not_lt (fun hlt => hneg ⟨x, hx, hlt⟩), hsum⟩
                  · intro _
                    exact ⟨_, hs⟩
                · intro hmem; exact absurd (by rw [hd]; decide) hmem
                · intro _ hv'; exact absurd hv' hv
                · intro _ probs _ hpe hlen'
                  injection hpe with hpe
                  subst hpe
                  exact absurd hlen hlen'
                · intro _ probs _ hpe _ hneg'
                  injection hpe with hpe
                  subst hpe
                  exact absurd hneg' hneg
                · intro _ probs _ hpe _ _ hsum'
                  injection hpe with hpe
                  subst hpe
                  exact absurd hsum hsum'
                · intro hnn; exact absurd hnn hn
                · intro huu; exact absurd huu hu
                · intro htt; exact absurd htt ht
              · have hs : d.sample rng =
                    Except.error "probabilities do not sum to 1" := by
                  simp [ParameterDistribution.sample, hn, hu, ht, hd, hv, hp, hlen,
                    hneg, hsum]
                refine ⟨?_, ?_, ?_, ?_, ?_, ?_, ?_, ?_, ?_⟩
                · rw [hs]
                  constructor
                  · rintro ⟨q, hq⟩; cases hq
                  · rintro (h | h | h | ⟨-, -, H⟩)
                    · exact absurd h hn
                    · exact absurd h hu
                    · exact absurd h ht
                    · exact absurd (H pl rfl).2.2 hsum
                · intro hmem; exact absurd (by rw [hd]; decide) hmem
                · intro _ hv'; exact absurd hv' hv
                · intro _ probs _ hpe hlen'
                  injection hpe with hpe
                  subst hpe
                  exact absurd hlen hlen'
                · intro _ probs _ hpe _ hneg'
                  injection hpe with hpe
                  subst hpe
                  exact absurd hneg' hneg
                · intro _ probs _ hpe _ _ _
                  exact hs
                · intro hnn; exact absurd hnn hn
                · intro huu; exact absurd huu hu
                · intro htt; exact absurd htt ht
          · have hs : d.sample rng = Except.error "a and p must have same size" := by
              simp [ParameterDistribution.sample, hn, hu, ht, hd, hv, hp, hlen]
            refine ⟨?_, ?_, ?_, ?_, ?_, ?_, ?_, ?_, ?_⟩
            · rw [hs]
              constructor
              · rintro ⟨q, hq⟩; cases hq
              · rintro (h | h | h | ⟨-, -, H⟩)
                · exact absurd h hn
                · exact absurd h hu
                · exact absurd h ht
                · exact absurd (H pl rfl).1 hlen
            · intro hmem; exact absurd (by rw [hd]; decide) hmem
            · intro _ hv'; exact absurd hv' hv
            · intro _ probs _ hpe _
              exact hs
            · intro _ probs _ hpe hlen' _
              injection hpe with hpe
              subst hpe
              exact absurd hlen' hlen
            · intro _ probs _ hpe hlen' _ _
              injection hpe with hpe
              subst hpe
              exact absurd hlen' hlen
            · intro hnn; exact absurd hnn hn
            · intro huu; exact absurd huu hu
            · intro htt; exact absurd htt ht
  · have hs : d.sample rng =
        Except.error ("Unknown distribution: " ++ d.distribution) := by
      simp [ParameterDistribution.sample, hn, hu, ht, hd]
    refine ⟨?_, fun _ => hs, ?_, ?_, ?_, ?_, ?_, ?_, ?_⟩
    · rw [hs]
      constructor
      · rintro ⟨q, hq⟩; cases hq
      · rintro (h | h | h | ⟨h, -, -⟩)
        · exact absurd h hn
        · exact absurd h hu
        · exact absurd h ht
        · exact absurd h hd
    · intro hdd; exact absurd hdd hd
    · intro hdd; exact absurd hdd hd
    · intro hdd; exact absurd hdd hd
    · intro hdd; exact absurd hdd hd
    · intro hnn; exact absurd hnn hn
    · intro huu; exact absurd huu hu
    · intro htt; exact absurd htt ht

/-- Witness: the amended C8 theorem at an unknown kind "weibull", a
discrete distribution with no values, a discrete distribution whose
probabilities sum to 3/4, and a uniform distribution with an empty
parameter dict (silently defaulted draw). -/
theorem sample_failure_modes_witness :
    ParameterDistribution.sample ⟨["p"], "weibull", []⟩ rngZero =
        Except.error "Unknown distribution: weibull" ∧
      ParameterDistribution.sample ⟨["p"], "discrete", []⟩ rngZero =
        Except.error "Discrete distribution must specify 'values'" ∧
      ParameterDistribution.sample
          ⟨["p"], "discrete",
            [("values", DistEntry.vals [1, 2]),
             ("probabilities", DistEntry.vals [2, 0])]⟩ rngZero =
        Except.error "probabilities do not sum to 1" ∧
      ParameterDistribution.sample ⟨["p"], "uniform", []⟩ rngZero = Except.ok 0 := by
  refine ⟨?_, ?_, ?_, ?_⟩
  · exact (sample_failure_modes ⟨["p"], "weibull", []⟩ rngZero).2.1 (by decide)
  · exact (sample_failure_modes ⟨["p"], "discrete", []⟩ rngZero).2.2.1 rfl rfl
  · exact (sample_failure_modes
      ⟨["p"], "discrete",
        [("values", DistEntry.vals [1, 2]),
         ("probabilities", DistEntry.vals [2, 0])]⟩ rngZero).2.2.2.2.2.1
      rfl [2, 0] (by decide) rfl (by decide) (by decide) (by norm_num)
  · exact (sample_failure_modes ⟨["p"], "uniform", []⟩ rngZero).2.2.2.2.2.2.2.1 rfl

/-! ### Monte Carlo batch runner (`MonteCarloSimulation.run`)

Per iteration `i` the runner samples parameters and applies them to a deep
copy of the base configuration (both OUTSIDE the per-iteration try/except:
their exceptions propagate and abort the batch), then builds and runs an
engine and collects its results (INSIDE the try/except: exceptions are
logged and the loop continues).  Both per-iteration effects are supplied
by an oracle.  `engine.get_all_results()` is called on the engine but is
defined nowhere in the source; it is modelled from the spec as returning
the mapping from component name to that component's final tabular result
(a component may yield no table). -/

/-- A cell of a component's tabular result: numeric or not
(`isinstance(value, (int, float))`). -/
inductive CellVal where
  | num : ℚ → CellVal
  | other : CellVal
deriving DecidableEq

/-- One row of a component's result DataFrame. -/
abbrev Row := List (String × CellVal)

/-- A component's tabular result (rows = years, columns = metric names). -/
abbrev Table := List Row

/-- Modelled from the spec: the value of `SimulationEngine.get_all_results`
(absent from the source; only callers exist) — the mapping from component
name to that component's final tabular result, `none` for a component
without a table. -/
abbrev EngineResults := List (String × Option Table)

/-- A `SampledParams` mapping: dot-joined parameter path to sampled value. -/
abbrev SampledParams := List (String × ℚ)

/-- Embeds the `SimulationResult` TypedDict recorded per successful
iteration. -/
structure SimRunResult where
  iteration : Nat
  parameters : SampledParams
  results : EngineResults
deriving DecidableEq

/-- Per-iteration outcome oracle for the Monte Carlo batch. -/
structure MCOracle where
  prepOf : Nat → Except String SampledParams
  engineOf : Nat → Except String EngineResults

/-- The mutable state of `MonteCarloSimulation` during `run`. -/
structure MCState where
  results : List SimRunResult
  parameter_samples : List SampledParams
deriving DecidableEq

/-- One iteration of the `for i in range(self.n_iterations)` loop body. -/
def mcIterate (o : MCOracle) (i : Nat) (st : MCState) : Except String MCState :=
  match o.prepOf i with
  | Except.error e => Except.error e
  | Except.ok samples =>
      let st1 : MCState := ⟨st.results, st.parameter_samples ++ [samples]⟩
      match o.engineOf i with
      | Except.ok res =>
          Except.ok ⟨st1.results ++ [⟨i, samples, res⟩], st1.parameter_samples⟩
      | Except.error _ => Except.ok st1

/-- The iteration loop: `k` remaining iterations starting at index `i`. -/
def mcLoop (o : MCOracle) : Nat → Nat → MCState → Except String MCState
  | 0, _, st => Except.ok st
  | k + 1, i, st =>
      match mcIterate o i st with
      | Except.error e => Except.error e
      | Except.ok st' => mcLoop o k (i + 1) st'

/-- Update-or-extend of an insertion-ordered association list. -/
def updAssoc {β : Type} : List (String × β) → String → (Option β → β) →
    List (String × β)
  | [], k, f => [(k, f none)]
  | (k', v) :: rest, k, f =>
      if k' = k then (k, f (some v)) :: rest else (k', v) :: updAssoc rest k f

/-- Embeds the metric-extraction loops of `_analyze_results`: for each
recorded run and each component table, take the final row and collect each
numeric column under the key `<component name>.<column name>`. -/
def collectMetrics (runs : List SimRunResult) : List (String × List ℚ) :=
  runs.foldl (fun acc run =>
    run.results.foldl (fun acc2 mr =>
      match mr.2 with
      | none => acc2
      | some t =>
          match t.getLast? with
          | none => acc2
          | some row =>
              row.foldl (fun acc3 kv =>
                match kv.2 with
                | CellVal.num q =>
                    updAssoc acc3 (mr.1 ++ "." ++ kv.1)
                      (fun old => old.getD [] ++ [q])
                | CellVal.other => acc3) acc2) acc) []

/-- Zero-padded run directory index, Python `f"run_{i:04d}"`. -/
def pad4 (n : Nat) : String :=
  let s := toString n
  String.mk (List.replicate (4 - s.length) '0') ++ s

/-- File artifacts written for each run when `save_all_runs` is set. -/
def perRunSaves (runs : List SimRunResult) : List String :=
  runs.enum.bind (fun p =>
    ("all_runs/run_" ++ pad4 p.1 ++ "/parameters.csv") ::
      p.2.results.filterMap (fun mr =>
        match mr.2 with
        | some t =>
            if t = [] then none
            else some ("all_runs/run_" ++ pad4 p.1 ++ "/" ++ mr.1 ++ ".csv")
        | none => none))

/-- Embeds `_save_results`: the summary-statistics file, the
parameter-samples file, and optionally every run's artifacts. -/
def saveResultsEvents (save_all : Bool) (st : MCState) : List String :=
  ["summary_statistics.csv", "parameter_samples.csv"] ++
    (if save_all then perRunSaves st.results else [])

/-- Embeds `_analyze_results`: with no recorded results, warn and return an
empty table WITHOUT saving; otherwise build the summary table (one row per
collected metric — its numpy descriptive statistics are external
arithmetic, so a row is modelled by the metric key and its collected
values) and persist via `_save_results`. -/
def analyzeResults (save_all : Bool) (st : MCState) :
    List (String × List ℚ) × List String :=
  if st.results = [] then ([], [])
  else (collectMetrics st.results, saveResultsEvents save_all st)

/-- The observable output of `MonteCarloSimulation.run`: final runner
state, returned summary table, and the persistence events performed. -/
structure MCRunOutput where
  state : MCState
  summary : List (String × List ℚ)
  saves : List String
deriving DecidableEq

/-- Embeds `MonteCarloSimulation.run`: reset state, run the iteration
loop (per-iteration engine failures contained, preparation failures
propagated), then analyze and persist. -/
def MonteCarloSimulation.run (o : MCOracle) (n : Nat) (save_all : Bool) :
    Except String MCRunOutput :=
  match mcLoop o n 0 ⟨[], []⟩ with
  | Except.error e => Except.error e
  | Except.ok st =>
      Except.ok ⟨st, (analyzeResults save_all st).1, (analyzeResults save_all st).2⟩

/-- The records of the successful iterations among indices i..i+k-1. -/
def successRecords (o : MCOracle) : Nat → Nat → List SimRunResult
  | _, 0 => []
  | i, k + 1 =>
      (match o.prepOf i, o.engineOf i with
       | Except.ok s, Except.ok r => [⟨i, s, r⟩]
       | _, _ => []) ++ successRecords o (i + 1) k

/-- The sampled parameter sets of iterations i..i+k-1. -/
def sampleRecords (o : MCOracle) : Nat → Nat → List SampledParams
  | _, 0 => []
  | i, k + 1 =>
      (match o.prepOf i with
       | Except.ok s => [s]
       | _ => []) ++ sampleRecords o (i + 1) k

theorem mcLoop_ok_characterization (o : MCOracle) (k : Nat) :
    ∀ i st st', mcLoop o k i st = Except.ok st' →
      st'.results = st.results ++ successRecords o i k ∧
      st'.parameter_samples = st.parameter_samples ++ sampleRecords o i k := by
  induction k with
  | zero =>
      intro i st st' h
      cases h
      simp [successRecords, sampleRecords]
  | succ k ih =>
      intro i st st' h
      rw [mcLoop] at h
      cases hp : o.prepOf i with
      | error e => rw [mcIterate, hp] at h; cases h
      | ok s =>
          cases he : o.engineOf i with
          | ok r =>
              rw [mcIterate, hp] at h
              simp only [he] at h
              obtain ⟨h1, h2⟩ := ih (i + 1) _ st' h
              refine ⟨?_, ?_⟩
              · rw [h1]
                simp [successRecords, hp, he]
              · rw [h2]
                simp [sampleRecords, hp]
          | error e =>
              rw [mcIterate, hp] at h
              simp only [he] at h
              obtain ⟨h1, h2⟩ := ih (i + 1) _ st' h
              refine ⟨?_, ?_⟩
              · rw [h1]
                simp [successRecords, hp, he]
              · rw [h2]
                simp [sampleRecords, hp]

theorem mcLoop_ok_of_preps (o : MCOracle) (k : Nat) :
    ∀ i st, (∀ j, i ≤ j → j < i + k → ∃ s, o.prepOf j = Except.ok s) →
      ∃ st', mcLoop o k i st = Except.ok st' := by
  induction k with
  | zero => intro i st _; exact ⟨st, rfl⟩
  | succ k ih =>
      intro i st h
      obtain ⟨s, hs⟩ := h i (le_refl i) (by omega)
      cases he : o.engineOf i with
      | ok r =>
          obtain ⟨st', hst'⟩ :=
            ih (i + 1) ⟨st.results ++ [⟨i, s, r⟩], st.parameter_samples ++ [s]⟩
              (fun j hj1 hj2 => h j (by omega) (by omega))
          refine ⟨st', ?_⟩
          rw [mcLoop, mcIterate, hs]
          simp only [he]
          exact hst'
      | error e =>
          obtain ⟨st', hst'⟩ :=
            ih (i + 1) ⟨st.results, st.parameter_samples ++ [s]⟩
              (fun j hj1 hj2 => h j (by omega) (by omega))
          refine ⟨st', ?_⟩
          rw [mcLoop, mcIterate, hs]
          simp only [he]
          exact hst'

theorem mem_successRecords_iff (o : MCOracle) (k : Nat) :
    ∀ i j s r, (SimRunResult.mk j s r ∈ successRecords o i k ↔
      i ≤ j ∧ j < i + k ∧ o.prepOf j = Except.ok s ∧ o.engineOf j = Except.ok r) := by
  induction k with
  | zero => intro i j s r; simp [successRecords]; omega
  | succ k ih =>
      intro i j s r
      rw [successRecords, List.mem_append, ih (i + 1) j s r]
      constructor
      · rintro (h | ⟨h1, h2, h3, h4⟩)
        · cases hp : o.prepOf i with
          | error e => rw [hp] at h; simp at h
          | ok s0 =>
              cases he : o.engineOf i with
              | error e => rw [hp, he] at h; simp at h
              | ok r0 =>
                  rw [hp, he] at h
                  simp only [List.mem_singleton] at h
                  injection h with hji hss hrr
                  subst hji
                  subst hss
                  subst hrr
                  exact ⟨le_refl j, by omega, hp, he⟩
        · exact ⟨by omega, by omega, h3, h4⟩
      · rintro ⟨h1, h2, h3, h4⟩
        by_cases hij : j = i
        · subst hij
          left
          rw [h3, h4]
          simp
        · right
          exact ⟨by omega, by omega, h3, h4⟩

theorem sampleRecords_length (o : MCOracle) (k : Nat) :
    ∀ i, (∀ j, i ≤ j → j < i + k → ∃ s, o.prepOf j = Except.ok s) →
      (sampleRecords o i k).length = k := by
  induction k with
  | zero => intro i _; simp [sampleRecords]
  | succ k ih =>
      intro i h
      obtain ⟨s, hs⟩ := h i (le_refl i) (by omega)
      rw [sampleRecords, hs]
      simp only [List.length_append, List.length_singleton,
        ih (i + 1) (fun j hj1 hj2 => h j (by omega) (by omega))]
      omega

/-- Whether an engine-iteration outcome succeeded. -/
def engineOk (e : Except String EngineResults) : Bool :=
  match e with
  | Except.ok _ => true
  | Except.error _ => false

theorem successRecords_length (o : MCOracle) (k : Nat) :
    ∀ i, (∀ j, i ≤ j → j < i + k → ∃ s, o.prepOf j = Except.ok s) →
      (successRecords o i k).length =
        ((List.range' i k).countP (fun j => engineOk (o.engineOf j))) := by
  induction k with
  | zero => intro i _; simp [successRecords]
  | succ k ih =>
      intro i h
      obtain ⟨s, hs⟩ := h i (le_refl i) (by omega)
      have hrest := ih (i + 1) (fun j hj1 hj2 => h j (by omega) (by omega))
      rw [successRecords, List.range'_succ, List.countP_cons, List.length_append,
        hrest, hs]
      cases he : o.engineOf i with
      | ok r =>
          have hek : engineOk (Except.ok r) = true := rfl
          simp [hek]
          omega
      | error e =>
          have hek : engineOk (Except.error e) = false := rfl
          simp [hek]

/-- Claim C1: for every Monte Carlo iteration whose engine factory and
engine `run()` complete without raising, `MonteCarloSimulation.run`
appends to its results list a `SimulationRunResult` record holding the
0-based iteration index, the sampled parameter set used for that
iteration, and the component-name-to-final-table mapping
(the spec-modelled `get_all_results`). -/
theorem mc_run_records_successful_iteration (o : MCOracle) (n : Nat)
    (save_all : Bool) (out : MCRunOutput) (i : Nat) (s : SampledParams)
    (r : EngineResults)
    (hrun : MonteCarloSimulation.run o n save_all = Except.ok out)
    (hi : i < n) (hs : o.prepOf i = Except.ok s)
    (hr : o.engineOf i = Except.ok r) :
    SimRunResult.mk i s r ∈ out.state.results := by
  rw [MonteCarloSimulation.run] at hrun
  cases hloop : mcLoop o n 0 ⟨[], []⟩ with
  | error e => rw [hloop] at hrun; cases hrun
  | ok st =>
      rw [hloop] at hrun
      injection hrun with hout
      obtain ⟨h1, -⟩ := mcLoop_ok_characterization o n 0 ⟨[], []⟩ st hloop
      rw [← hout]
      show SimRunResult.mk i s r ∈ st.results
      rw [h1]
      simp only [List.nil_append]
      exact (mem_successRecords_iff o n 0 i s r).mpr
        ⟨Nat.zero_le i, by omega, hs, hr⟩

/-- A concrete oracle whose single iteration succeeds. -/
def mcOracleA : MCOracle where
  prepOf := fun _ => Except.ok [("g.v", 1)]
  engineOf := fun _ => Except.ok [("Capacity", some [[("value", CellVal.num 1)]])]

/-- Witness: the C1 theorem at a one-iteration batch whose iteration
succeeds — the record for iteration 0 is in the results list. -/
theorem mc_run_records_successful_iteration_witness :
    SimRunResult.mk 0 [("g.v", 1)] [("Capacity", some [[("value", CellVal.num 1)]])] ∈
      (MCRunOutput.mk
        ⟨[SimRunResult.mk 0 [("g.v", 1)]
            [("Capacity", some [[("value", CellVal.num 1)]])]],
          [[("g.v", 1)]]⟩
        [("Capacity.value", [1])]
        ["summary_statistics.csv", "parameter_samples.csv"]).state.results :=
  mc_run_records_successful_iteration mcOracleA 1 false _ 0 _ _ rfl
    (by decide) rfl rfl

/-- Claim C2: with every per-iteration preparation succeeding, the batch
completes without raising; an iteration appears in the recorded results
exactly when its index is in range and its engine construction and run
succeeded (failed iterations are excluded, all others still execute); the
number of records equals the number of successful iterations; and all n
iterations drew and recorded a parameter sample. -/
theorem mc_run_isolates_iteration_failures (o : MCOracle) (n : Nat)
    (save_all : Bool)
    (hprep : ∀ i, i < n → ∃ s, o.prepOf i = Except.ok s) :
    ∃ out, MonteCarloSimulation.run o n save_all = Except.ok out ∧
      (∀ j s r, SimRunResult.mk j s r ∈ out.state.results ↔
        j < n ∧ o.prepOf j = Except.ok s ∧ o.engineOf j = Except.ok r) ∧
      out.state.results.length =
        (List.range' 0 n).countP (fun j => engineOk (o.engineOf j)) ∧
      out.state.parameter_samples.length = n := by
  obtain ⟨st, hst⟩ :=
    mcLoop_ok_of_preps o n 0 ⟨[], []⟩ (fun j _ h2 => hprep j (by omega))
  obtain ⟨h1, h2⟩ := mcLoop_ok_characterization o n 0 ⟨[], []⟩ st hst
  refine ⟨⟨st, (analyzeResults save_all st).1, (analyzeResults save_all st).2⟩,
    by rw [MonteCarloSimulation.run, hst], ?_, ?_, ?_⟩
  · intro j s r
    show SimRunResult.mk j s r ∈ st.results ↔ _
    rw [h1]
    simp only [List.nil_append]
    rw [mem_successRecords_iff o n 0 j s r]
    constructor
    · rintro ⟨-, hj, hp, he⟩
      exact ⟨by omega, hp, he⟩
    · rintro ⟨hj, hp, he⟩
      exact ⟨Nat.zero_le j, by omega, hp, he⟩
  · show st.results.length = _
    rw [h1]
    simp only [List.nil_append]
    exact successRecords_length o n 0 (fun j _ h2 => hprep j (by omega))
  · show st.parameter_samples.length = n
    rw [h2]
    simp only [List.nil_append]
    exact sampleRecords_length o n 0 (fun j _ h2 => hprep j (by omega))

/-- Projection used by closed witnesses: the recorded-results count of a
completed run. -/
def runResultsCount (x : Except String MCRunOutput) : Option Nat :=
  match x with
  | Except.ok out => some out.state.results.length
  | Except.error _ => none

/-- A concrete oracle for a 5-iteration batch in which only iteration
index 2's engine factory raises. -/
def mcOracleB : MCOracle where
  prepOf := fun _ => Except.ok [("p", 1)]
  engineOf := fun i =>
    if i = 2 then Except.error "factory failure"
    else Except.ok [("M", some [[("m", CellVal.num 2)]])]

/-- Witness: the C2 theorem at N=5 with only iteration 2's factory
raising — the run completes and records exactly 4 results. -/
theorem mc_run_isolates_iteration_failures_witness :
    runResultsCount (MonteCarloSimulation.run mcOracleB 5 false) = some 4 := by
  obtain ⟨out, hrun, hiff, hlen, hns⟩ :=
    mc_run_isolates_iteration_failures mcOracleB 5 false
      (fun i _ => ⟨[("p", 1)], rfl⟩)
  rw [hrun]
  simp only [runResultsCount]
  rw [hlen]
  decide

/-- Claim C10: if every iteration's engine fails (zero recorded results)
while sampling succeeds, the run returns an empty statistics table without
raising, the summary-statistics and parameter-samples persistence is
skipped entirely (no save event occurs), yet a sampled parameter set was
drawn and recorded in memory for every one of the n iterations. -/
theorem mc_run_all_failures_skips_save (o : MCOracle) (n : Nat)
    (save_all : Bool)
    (hprep : ∀ i, i < n → ∃ s, o.prepOf i = Except.ok s)
    (hfail : ∀ i, i < n → ∃ e, o.engineOf i = Except.error e) :
    ∃ out, MonteCarloSimulation.run o n save_all = Except.ok out ∧
      out.summary = [] ∧ out.saves = [] ∧ out.state.results = [] ∧
      out.state.parameter_samples.length = n := by
  obtain ⟨st, hst⟩ :=
    mcLoop_ok_of_preps o n 0 ⟨[], []⟩ (fun j _ h2 => hprep j (by omega))
  obtain ⟨h1, h2⟩ := mcLoop_ok_characterization o n 0 ⟨[], []⟩ st hst
  have hres : st.results = [] := by
    rw [h1]
    simp only [List.nil_append]
    cases hsr : successRecords o 0 n with
    | nil => rfl
    | cons x xs =>
        obtain ⟨j, s, r⟩ := x
        have hx : SimRunResult.mk j s r ∈ successRecords o 0 n := by
          rw [hsr]; exact List.mem_cons_self _ _
        obtain ⟨-, hjn, -, he⟩ := (mem_successRecords_iff o n 0 j s r).mp hx
        obtain ⟨e, he'⟩ := hfail j (by omega)
        rw [he'] at he
        cases he
  refine ⟨⟨st, (analyzeResults save_all st).1, (analyzeResults save_all st).2⟩,
    by rw [MonteCarloSimulation.run, hst], ?_, ?_, hres, ?_⟩
  · show (analyzeResults save_all st).1 = []
    rw [analyzeResults, if_pos hres]
  · show (analyzeResults save_all st).2 = []
    rw [analyzeResults, if_pos hres]
  · show st.parameter_samples.length = n
    rw [h2]
    simp only [List.nil_append]
    exact sampleRecords_length o n 0 (fun j _ h2 => hprep j (by omega))

/-- Projection used by closed witnesses: the save events of a completed
run. -/
def runSavesOf (x : Except String MCRunOutput) : Option (List String) :=
  match x with
  | Except.ok out => some out.saves
  | Except.error _ => none

/-- Projection used by closed witnesses: the summary table of a completed
run. -/
def runSummaryOf (x : Except String MCRunOutput) :
    Option (List (String × List ℚ)) :=
  match x with
  | Except.ok out => some out.summary
  | Except.error _ => none

/-- A concrete oracle whose engine fails in every iteration. -/
def mcOracleC : MCOracle where
  prepOf := fun _ => Except.ok [("p", 1)]
  engineOf := fun _ => Except.error "engine failure"

/-- Witness: the C10 theorem at a 3-iteration batch in which every
iteration's engine fails — empty summary and no save events. -/
theorem mc_run_all_failures_skips_save_witness :
    runSummaryOf (MonteCarloSimulation.run mcOracleC 3 true) = some [] ∧
      runSavesOf (MonteCarloSimulation.run mcOracleC 3 true) = some [] := by
  obtain ⟨out, hrun, hsum, hsaves, hres, hns⟩ :=
    mc_run_all_failures_skips_save mcOracleC 3 true
      (fun i _ => ⟨[("p", 1)], rfl⟩)
      (fun i _ => ⟨"engine failure", rfl⟩)
  rw [hrun]
  simp only [runSummaryOf, runSavesOf]
  rw [hsum, hsaves]
  exact ⟨rfl, rfl⟩

/-! ### Sensitivity analysis (`generate_sensitivity_analysis`)

scipy's `stats.pearsonr` is an external collaborator, modelled by an
oracle `pearson` from the aligned parameter series (reindexing may yield
missing entries, modelled as `none`) and the metric series to the
correlation coefficient and p-value. -/

/-- Nested-dict assignment `metrics_data[key][iteration] = value`. -/
def updAssocNat {β : Type} : List (Nat × β) → Nat → β → List (Nat × β)
  | [], k, v => [(k, v)]
  | (k', v') :: rest, k, v =>
      if k' = k then (k, v) :: rest else (k', v') :: updAssocNat rest k v

/-- Embeds the metric-extraction loops of `generate_sensitivity_analysis`:
for each recorded run and each non-empty component table, collect each
numeric final-row column as `metrics_data[<component>.<column>][iteration]
= value`. -/
def metricsData (runs : List SimRunResult) : List (String × List (Nat × ℚ)) :=
  runs.foldl (fun acc run =>
    run.results.foldl (fun acc2 mr =>
      match mr.2 with
      | none => acc2
      | some t =>
          match t.getLast? with
          | none => acc2
          | some row =>
              row.foldl (fun acc3 kv =>
                match kv.2 with
                | CellVal.num q =>
                    updAssoc acc3 (mr.1 ++ "." ++ kv.1)
                      (fun old => updAssocNat (old.getD []) run.iteration q)
                | CellVal.other => acc3) acc2) acc) []

/-- The columns of `pd.DataFrame(self.parameter_samples)`: the union of
the sample dicts' keys in first-appearance order. -/
def columnsOf (samples : List SampledParams) : List String :=
  samples.foldl (fun acc s =>
    s.foldl (fun acc2 kv => if kv.1 ∈ acc2 then acc2 else acc2 ++ [kv.1]) acc) []

/-- Embeds `params_df[param_name].reindex(metric_series.index)`: the
parameter's sampled value at each iteration the metric was collected for
(`none` models a NaN for a missing row or key). -/
def alignParam (samples : List SampledParams) (param : String)
    (idxs : List Nat) : List (Option ℚ) :=
  idxs.map (fun i => (samples.get? i).bind (fun s => lookupKey s param))

/-- One sensitivity table entry: parameter name, Pearson correlation,
p-value, absolute correlation. -/
abbrev SensEntry := String × ℚ × ℚ × ℚ

/-- Embeds the per-parameter correlation loop: for every parameter column,
align its samples with the metric's iterations and, when at least two
points exist, record (correlation, p_value, abs_correlation). -/
def corrEntries (pearson : List (Option ℚ) → List ℚ → ℚ × ℚ)
    (samples : List SampledParams) (d : List (Nat × ℚ)) : List SensEntry :=
  (columnsOf samples).filterMap (fun param =>
    let aligned := alignParam samples param (d.map Prod.fst)
    if 2 ≤ aligned.length then
      some (param, (pearson aligned (d.map Prod.snd)).1,
        (pearson aligned (d.map Prod.snd)).2,
        |(pearson aligned (d.map Prod.snd)).1|)
    else none)

/-- The descending-by-absolute-correlation order used by
`sort_values("abs_correlation", ascending=False)`. -/
def sensLE (a b : SensEntry) : Prop := b.2.2.2 ≤ a.2.2.2

instance : DecidableRel sensLE := fun a b =>
  inferInstanceAs (Decidable (b.2.2.2 ≤ a.2.2.2))

instance : IsTotal SensEntry sensLE :=
  ⟨fun a b => le_total b.2.2.2 a.2.2.2⟩

instance : IsTrans SensEntry sensLE :=
  ⟨fun _ _ _ h1 h2 => le_trans h2 h1⟩

/-- Embeds `generate_sensitivity_analysis`: nothing without results or
samples; for each collected metric with at least 10 values, compute the
per-parameter correlation entries and emit them sorted descending by
absolute correlation (metrics with no entries are skipped). -/
def generate_sensitivity_analysis (pearson : List (Option ℚ) → List ℚ → ℚ × ℚ)
    (parameter_samples : List SampledParams) (results : List SimRunResult) :
    List (String × List SensEntry) :=
  if results = [] ∨ parameter_samples = [] then []
  else
    (metricsData results).filterMap (fun md =>
      if md.2.length < 10 then none
      else
        if corrEntries pearson parameter_samples md.2 = [] then none
        else some (md.1,
          List.insertionSort sensLE (corrEntries pearson parameter_samples md.2)))

/-- Claim C9: a metric gets a sensitivity table only when at least 10
values were collected for it; each emitted table consists exactly of the
per-parameter entries (Pearson correlation, p-value, absolute correlation
computed on the iteration-index-aligned series) and is sorted descending
by absolute correlation; conversely every metric with ≥10 values and a
non-empty entry list is emitted. -/
theorem sensitivity_analysis_tables (pearson : List (Option ℚ) → List ℚ → ℚ × ℚ)
    (parameter_samples : List SampledParams) (results : List SimRunResult) :
    (∀ m tbl, (m, tbl) ∈ generate_sensitivity_analysis pearson parameter_samples results →
      ∃ d, (m, d) ∈ metricsData results ∧ 10 ≤ d.length ∧
        tbl.Perm (corrEntries pearson parameter_samples d) ∧
        tbl.Pairwise sensLE) ∧
    (results ≠ [] → parameter_samples ≠ [] →
      ∀ m d, (m, d) ∈ metricsData results → 10 ≤ d.length →
        corrEntries pearson parameter_samples d ≠ [] →
        (m, List.insertionSort sensLE (corrEntries pearson parameter_samples d)) ∈
          generate_sensitivity_analysis pearson parameter_samples results) := by
  constructor
  · intro m tbl hmem
    rw [generate_sensitivity_analysis] at hmem
    by_cases hempty : results = [] ∨ parameter_samples = []
    · rw [if_pos hempty] at hmem
      simp at hmem
    · rw [if_neg hempty] at hmem
      obtain ⟨md, hmd, hf⟩ := List.mem_filterMap.mp hmem
      by_cases hlen : md.2.length < 10
      · rw [if_pos hlen] at hf; cases hf
      · rw [if_neg hlen] at hf
        by_cases hent : corrEntries pearson parameter_samples md.2 = []
        · rw [if_pos hent] at hf; cases hf
        · rw [if_neg hent] at hf
          injection hf with hpair
          obtain ⟨hm, htbl⟩ : md.1 = m ∧
              List.insertionSort sensLE
                (corrEntries pearson parameter_samples md.2) = tbl := by
            exact ⟨congrArg Prod.fst hpair, congrArg Prod.snd hpair⟩
          refine ⟨md.2, ?_, by omega, ?_, ?_⟩
          · rw [← hm]
            exact hmd
          · rw [← htbl]
            exact List.perm_insertionSort sensLE _
          · rw [← htbl]
            exact List.sorted_insertionSort sensLE _
  · intro hres hsamp m d hmem hlen hent
    rw [generate_sensitivity_analysis, if_neg (by
      rintro (h | h)
      · exact hres h
      · exact hsamp h)]
    apply List.mem_filterMap.mpr
    refine ⟨(m, d), hmem, ?_⟩
    rw [if_neg (Nat.not_lt.mpr hlen), if_neg hent]

/-- A constant correlation oracle used by the closed witness. -/
def pearsonConst : List (Option ℚ) → List ℚ → ℚ × ℚ := fun _ _ => (1, 0)

/-- Ten recorded runs, each contributing the numeric metric `M.m`. -/
def sensRuns : List SimRunResult :=
  (List.range 10).map
    (fun i => SimRunResult.mk i [("p", 1)] [("M", some [[("m", CellVal.num 1)]])])

/-- Ten recorded parameter samples for the single parameter `p`. -/
def sensSamples : List SampledParams := List.replicate 10 [("p", 1)]

/-- Witness: the C9 theorem's completeness direction at ten runs of a
single metric and a single parameter. -/
theorem sensitivity_analysis_tables_witness :
    ("M.m",
      List.insertionSort sensLE
        (corrEntries pearsonConst sensSamples
          ((List.range 10).map (fun i => (i, (1 : ℚ)))))) ∈
      generate_sensitivity_analysis pearsonConst sensSamples sensRuns :=
  (sensitivity_analysis_tables pearsonConst sensSamples sensRuns).2
    (by decide) (by decide) "M.m" ((List.range 10).map (fun i => (i, (1 : ℚ))))
    (by decide) (by decide) (by decide)

/-! ### Deep-copy isolation of `_apply_samples` (claim C7)

Claim C7 is about Python object mutation, so the nested configuration is
embedded a second time with explicit aliasing semantics: a heap maps
addresses to dictionary nodes whose values are scalar leaves or references
to other nodes.  `copy.deepcopy` allocates fresh addresses for the whole
reachable tree; `_set_nested_param` mutates one node of the heap in
place.  Isolation is then a frame property over the heap. -/

/-- A value stored in a heap dictionary node. -/
inductive HVal where
  | leaf : ℚ → HVal
  | ref : Nat → HVal
deriving DecidableEq

/-- A dictionary node: an insertion-ordered association list. -/
abbrev HNode := List (String × HVal)

/-- A heap of dictionary nodes plus the next fresh address. -/
structure Heap where
  mem : List (Nat × HNode)
  next : Nat
deriving DecidableEq

def lookupAddrList : List (Nat × HNode) → Nat → Option HNode
  | [], _ => none
  | e :: rest, a => if e.1 = a then some e.2 else lookupAddrList rest a

/-- Dereference an address. -/
def lookupAddr (h : Heap) (a : Nat) : Option HNode :=
  lookupAddrList h.mem a

/-- In-place replacement of the node stored at address `a`. -/
def updateAddr (h : Heap) (a : Nat) (nd : HNode) : Heap :=
  ⟨h.mem.map (fun e => if e.1 = a then (a, nd) else e), h.next⟩

/-- Allocation of a new node at the next fresh address. -/
def alloc (h : Heap) (nd : HNode) : Heap × Nat :=
  (⟨(h.next, nd) :: h.mem, h.next + 1⟩, h.next)

/-- Copy of one node's entries: leaves are copied by value, references by
deep-copying the referenced node with `dc` (entries in order). -/
def copyNodeWith (dc : Heap → Nat → Option (Heap × Nat)) :
    Heap → HNode → Option (Heap × HNode)
  | h, [] => some (h, [])
  | h, (k, HVal.leaf q) :: rest =>
      match copyNodeWith dc h rest with
      | none => none
      | some (h1, r1) => some (h1, (k, HVal.leaf q) :: r1)
  | h, (k, HVal.ref b) :: rest =>
      match dc h b with
      | none => none
      | some (h1, b1) =>
          match copyNodeWith dc h1 rest with
          | none => none
          | some (h2, r2) => some (h2, (k, HVal.ref b1) :: r2)

/-- Embeds `copy.deepcopy` on a nested dict: recursively copy the node at
`a` into entirely fresh addresses.  `fuel` bounds the recursion depth
(sufficient for any acyclic configuration). -/
def deepcopy : Nat → Heap → Nat → Option (Heap × Nat)
  | 0, _, _ => none
  | fuel + 1, h, a =>
      match lookupAddr h a with
      | none => none
      | some nd =>
          match copyNodeWith (deepcopy fuel) h nd with
          | none => none
          | some (h1, nd1) => some (alloc h1 nd1)

/-- Walk a value through the heap along a key path (the read side of
`_get_nested_param` under aliasing semantics). -/
def walkVal (h : Heap) : HVal → List String → Option HVal
  | v, [] => some v
  | HVal.leaf _, _ :: _ => none
  | HVal.ref a, k :: rest =>
      match lookupAddr h a with
      | none => none
      | some nd =>
          match lookupKey nd k with
          | none => none
          | some v' => walkVal h v' rest

/-- Read the value at `path` starting from the dict at address `a`. -/
def getNested (h : Heap) (a : Nat) (p : List String) : Option HVal :=
  walkVal h (HVal.ref a) p

/-- Embeds `_set_nested_param` under aliasing semantics: walk all but the
last key following references, then mutate the reached node in place by
assigning the final key. -/
def setNested (h : Heap) : Nat → List String → ℚ → Option Heap
  | _, [], _ => none
  | a, [k], v =>
      match lookupAddr h a with
      | none => none
      | some nd => some (updateAddr h a (setKey nd k (HVal.leaf v)))
  | a, k :: k' :: rest, v =>
      match lookupAddr h a with
      | none => none
      | some nd =>
          match lookupKey nd k with
          | none => none
          | some (HVal.leaf _) => none
          | some (HVal.ref b) => setNested h b (k' :: rest) v

/-- The `for param in self.parameter_distributions` loop of
`_apply_samples`: apply each sampled value at its path. -/
def setAllNested (root : Nat) : Heap → List (List String × ℚ) → Option Heap
  | h, [] => some h
  | h, (p, v) :: rest =>
      match setNested h root p v with
      | none => none
      | some h' => setAllNested root h' rest

/-- Embeds `_apply_samples`: deep-copy the base configuration, then apply
every sampled value at its path in the copy; returns the mutated heap and
the copy's root address. -/
def applySamplesH (fuel : Nat) (h : Heap) (a : Nat)
    (samples : List (List String × ℚ)) : Option (Heap × Nat) :=
  match deepcopy fuel h a with
  | none => none
  | some (h1, r) =>
      match setAllNested r h1 samples with
      | none => none
      | some h2 => some (h2, r)

/-- A sequence of Monte Carlo iterations, each deep-copying the SAME base
root and mutating its own copy; records each iteration's post-state and
copy root. -/
def runIterations (fuel : Nat) (a : Nat) :
    Heap → List (List (List String × ℚ)) → Option (Heap × List (Heap × Nat))
  | h, [] => some (h, [])
  | h, s :: rest =>
      match applySamplesH fuel h a s with
      | none => none
      | some (h1, r) =>
          match runIterations fuel a h1 rest with
          | none => none
          | some (hN, copies) => some (hN, (h1, r) :: copies)

/-- The value is a leaf or a reference below `n`. -/
def valBelow (v : HVal) (n : Nat) : Prop :=
  match v with
  | HVal.leaf _ => True
  | HVal.ref b => b < n

instance (v : HVal) (n : Nat) : Decidable (valBelow v n) :=
  match v with
  | HVal.leaf _ => isTrue trivial
  | HVal.ref b => inferInstanceAs (Decidable (b < n))

/-- The value is a leaf or a reference at least `n`. -/
def valGE (v : HVal) (n : Nat) : Prop :=
  match v with
  | HVal.leaf _ => True
  | HVal.ref b => n ≤ b

instance (v : HVal) (n : Nat) : Decidable (valGE v n) :=
  match v with
  | HVal.leaf _ => isTrue trivial
  | HVal.ref b => inferInstanceAs (Decidable (n ≤ b))

/-- All references of a node point below `n`. -/
def nodeRefsBelow (nd : HNode) (n : Nat) : Prop := ∀ kv ∈ nd, valBelow kv.2 n

/-- All references of a node point at or above `n`. -/
def nodeRefsGE (nd : HNode) (n : Nat) : Prop := ∀ kv ∈ nd, valGE kv.2 n

/-- Heap well-formedness: every stored address and every reference is
below the allocation frontier. -/
def Heap.WF (h : Heap) : Prop :=
  ∀ e ∈ h.mem, e.1 < h.next ∧ nodeRefsBelow e.2 h.next

instance (nd : HNode) (n : Nat) : Decidable (nodeRefsBelow nd n) :=
  inferInstanceAs (Decidable (∀ kv ∈ nd, valBelow kv.2 n))

instance (nd : HNode) (n : Nat) : Decidable (nodeRefsGE nd n) :=
  inferInstanceAs (Decidable (∀ kv ∈ nd, valGE kv.2 n))

instance (h : Heap) : Decidable h.WF :=
  inferInstanceAs (Decidable (∀ e ∈ h.mem, e.1 < h.next ∧ nodeRefsBelow e.2 h.next))

theorem lookupAddrList_mem : ∀ (l : List (Nat × HNode)) (a : Nat) (nd : HNode),
    lookupAddrList l a = some nd → (a, nd) ∈ l := by
  intro l
  induction l with
  | nil => intro a nd hl; simp [lookupAddrList] at hl
  | cons e rest ih =>
      intro a nd hl
      obtain ⟨e1, e2⟩ := e
      rw [lookupAddrList] at hl
      by_cases he : e1 = a
      · rw [if_pos he] at hl
        injection hl with hl
        subst he
        subst hl
        exact List.mem_cons_self _ _
      · rw [if_neg he] at hl
        exact List.mem_cons_of_mem _ (ih a nd hl)

theorem lookupAddr_mem (h : Heap) (a : Nat) (nd : HNode)
    (hl : lookupAddr h a = some nd) : (a, nd) ∈ h.mem :=
  lookupAddrList_mem h.mem a nd hl

theorem lookupKey_mem {β : Type} : ∀ (l : List (String × β)) (k : String) (v : β),
    lookupKey l k = some v → (k, v) ∈ l := by
  intro l
  induction l with
  | nil => intro k v hl; simp [lookupKey] at hl
  | cons e rest ih =>
      intro k v hl
      obtain ⟨k', v'⟩ := e
      rw [lookupKey] at hl
      by_cases hk : k' = k
      · rw [if_pos hk] at hl
        injection hl with hl
        subst hk
        subst hl
        exact List.mem_cons_self _ _
      · rw [if_neg hk] at hl
        exact List.mem_cons_of_mem _ (ih k v hl)

theorem valBelow_mono {v : HVal} {m m' : Nat} (h : valBelow v m) (hmm : m ≤ m') :
    valBelow v m' := by
  cases v with
  | leaf q => trivial
  | ref b => exact lt_of_lt_of_le h hmm

theorem valGE_mono {v : HVal} {m m' : Nat} (h : valGE v m') (hmm : m ≤ m') :
    valGE v m := by
  cases v with
  | leaf q => trivial
  | ref b => exact le_trans hmm h

theorem nodeRefsBelow_mono {nd : HNode} {m m' : Nat} (h : nodeRefsBelow nd m)
    (hmm : m ≤ m') : nodeRefsBelow nd m' :=
  fun kv hkv => valBelow_mono (h kv hkv) hmm

theorem nodeRefsGE_mono {nd : HNode} {m m' : Nat} (h : nodeRefsGE nd m')
    (hmm : m ≤ m') : nodeRefsGE nd m :=
  fun kv hkv => valGE_mono (h kv hkv) hmm

theorem mem_setKey {β : Type} : ∀ (l : List (String × β)) (k : String) (w : β)
    (kv : String × β), kv ∈ setKey l k w → kv ∈ l ∨ kv.2 = w := by
  intro l
  induction l with
  | nil =>
      intro k w kv hkv
      simp only [setKey, List.mem_singleton] at hkv
      right
      rw [hkv]
  | cons e rest ih =>
      intro k w kv hkv
      obtain ⟨k', v'⟩ := e
      rw [setKey] at hkv
      by_cases hk : k' = k
      · rw [if_pos hk] at hkv
        rcases List.mem_cons.mp hkv with h1 | h1
        · right; rw [h1]
        · left; exact List.mem_cons_of_mem _ h1
      · rw [if_neg hk] at hkv
        rcases List.mem_cons.mp hkv with h1 | h1
        · left; rw [h1]; exact List.mem_cons_self _ _
        · rcases ih k w kv h1 with h2 | h2
          · left; exact List.mem_cons_of_mem _ h2
          · right; exact h2

theorem lookupAddrList_update : ∀ (l : List (Nat × HNode)) (a : Nat) (nd : HNode)
    (b : Nat), lookupAddrList (l.map (fun e => if e.1 = a then (a, nd) else e)) b =
      if b = a then (lookupAddrList l a).map (fun _ => nd) else lookupAddrList l b := by
  intro l
  induction l with
  | nil =>
      intro a nd b
      by_cases hb : b = a <;> simp [lookupAddrList, hb]
  | cons e rest ih =>
      intro a nd b
      obtain ⟨e1, e2⟩ := e
      simp only [List.map_cons]
      by_cases he : e1 = a
      · subst he
        by_cases hb : b = e1
        · subst hb
          simp [lookupAddrList]
        · simp [lookupAddrList, hb, Ne.symm hb, ih]
      · by_cases hb : b = e1
        · subst hb
          have hba : ¬ b = a := he
          simp [lookupAddrList, he, hba]
        · simp [lookupAddrList, he, hb, Ne.symm hb, ih]

theorem lookupAddr_update (h : Heap) (a : Nat) (nd : HNode) (b : Nat) :
    lookupAddr (updateAddr h a nd) b =
      if b = a then (lookupAddr h a).map (fun _ => nd) else lookupAddr h b :=
  lookupAddrList_update h.mem a nd b

theorem WF_lookup_lt {h : Heap} {a : Nat} {nd : HNode} (hwf : h.WF)
    (hl : lookupAddr h a = some nd) : a < h.next :=
  (hwf _ (lookupAddr_mem h a nd hl)).1

theorem WF_lookup_below {h : Heap} {a : Nat} {nd : HNode} (hwf : h.WF)
    (hl : lookupAddr h a = some nd) : nodeRefsBelow nd h.next :=
  (hwf _ (lookupAddr_mem h a nd hl)).2

theorem WF_closed {h : Heap} (hwf : h.WF) :
    ∀ b nd, b < h.next → lookupAddr h b = some nd → nodeRefsBelow nd h.next :=
  fun _ _ _ hl => WF_lookup_below hwf hl

theorem WF_updateAddr {h : Heap} {a : Nat} {nd : HNode} (hwf : h.WF)
    (hnd : nodeRefsBelow nd h.next) : (updateAddr h a nd).WF := by
  intro e he
  rw [updateAddr] at he
  simp only [List.mem_map] at he
  obtain ⟨e0, he0, heq⟩ := he
  by_cases h0 : e0.1 = a
  · rw [if_pos h0] at heq
    subst heq
    exact ⟨h0 ▸ (hwf e0 he0).1, hnd⟩
  · rw [if_neg h0] at heq
    subst heq
    exact hwf e0 he0

theorem walkVal_agree (n : Nat) : ∀ (p : List String) (h h' : Heap) (v : HVal),
    (∀ b, b < n → lookupAddr h' b = lookupAddr h b) →
    (∀ b nd, b < n → lookupAddr h b = some nd → nodeRefsBelow nd n) →
    valBelow v n → walkVal h' v p = walkVal h v p := by
  intro p
  induction p with
  | nil => intro h h' v _ _ _; cases v <;> rfl
  | cons k rest ih =>
      intro h h' v hag hcl hv
      cases v with
      | leaf q => rfl
      | ref a =>
          have ha : a < n := hv
          have hswap := hag a ha
          cases hl : lookupAddr h a with
          | none =>
              rw [hl] at hswap
              simp [walkVal, hl, hswap]
          | some nd =>
              rw [hl] at hswap
              cases hk : lookupKey nd k with
              | none => simp [walkVal, hl, hswap, hk]
              | some v' =>
                  have hv' : valBelow v' n :=
                    hcl a nd ha hl (k, v') (lookupKey_mem nd k v' hk)
                  simp only [walkVal, hl, hswap, hk]
                  exact ih h h' v' hag hcl hv'

/-- Frame postcondition of a copying step from heap `h` to heap `h'`:
the frontier only grows, pre-existing bindings are untouched,
well-formedness holds, and every fresh binding refers only to fresh
addresses (all below the new frontier). -/
def CopyPost (h h' : Heap) : Prop :=
  h.next ≤ h'.next ∧
  (∀ b, b < h.next → lookupAddr h' b = lookupAddr h b) ∧
  h'.WF ∧
  (∀ b nd, h.next ≤ b → lookupAddr h' b = some nd →
    nodeRefsGE nd h.next ∧ nodeRefsBelow nd h'.next)

theorem CopyPost_refl (h : Heap) (hwf : h.WF) : CopyPost h h :=
  ⟨le_refl _, fun _ _ => rfl, hwf,
   fun _ _ hb hl => absurd (WF_lookup_lt hwf hl) (by omega)⟩

theorem CopyPost_trans {h ha h1 : Heap} (p1 : CopyPost h ha)
    (p2 : CopyPost ha h1) : CopyPost h h1 := by
  obtain ⟨m1, ag1, wf1, fr1⟩ := p1
  obtain ⟨m2, ag2, wf2, fr2⟩ := p2
  refine ⟨le_trans m1 m2, ?_, wf2, ?_⟩
  · intro b hb
    rw [ag2 b (by omega), ag1 b hb]
  · intro b nd hb hl
    by_cases hcase : b < ha.next
    · rw [ag2 b hcase] at hl
      obtain ⟨g, bl⟩ := fr1 b nd hb hl
      exact ⟨g, nodeRefsBelow_mono bl m2⟩
    · obtain ⟨g, bl⟩ := fr2 b nd (by omega) hl
      exact ⟨nodeRefsGE_mono g m1, bl⟩

theorem copyNodeWith_post (dc : Heap → Nat → Option (Heap × Nat))
    (Hdc : ∀ h a h' r, Heap.WF h → dc h a = some (h', r) →
      CopyPost h h' ∧ h.next ≤ r ∧ r < h'.next) :
    ∀ (nd : HNode) (h h1 : Heap) (nd1 : HNode), Heap.WF h →
      copyNodeWith dc h nd = some (h1, nd1) →
      CopyPost h h1 ∧ nodeRefsGE nd1 h.next ∧ nodeRefsBelow nd1 h1.next := by
  intro nd
  induction nd with
  | nil =>
      intro h h1 nd1 hwf hcp
      rw [copyNodeWith] at hcp
      simp only [Option.some.injEq, Prod.mk.injEq] at hcp
      obtain ⟨hh, hn⟩ := hcp
      subst hh
      subst hn
      exact ⟨CopyPost_refl h hwf, by intro kv hkv; simp at hkv,
        by intro kv hkv; simp at hkv⟩
  | cons kv rest ih =>
      obtain ⟨k, v⟩ := kv
      cases v with
      | leaf q =>
          intro h h1 nd1 hwf hcp
          rw [copyNodeWith] at hcp
          cases hr : copyNodeWith dc h rest with
          | none => rw [hr] at hcp; cases hcp
          | some pr =>
              obtain ⟨h2, r2⟩ := pr
              simp only [hr, Option.some.injEq, Prod.mk.injEq] at hcp
              obtain ⟨hh, hn⟩ := hcp
              subst hh
              subst hn
              obtain ⟨p, g, bl⟩ := ih h h2 r2 hwf hr
              refine ⟨p, ?_, ?_⟩
              · intro kv hkv
                rcases List.mem_cons.mp hkv with h1eq | hmem
                · rw [h1eq]; trivial
                · exact g kv hmem
              · intro kv hkv
                rcases List.mem_cons.mp hkv with h1eq | hmem
                · rw [h1eq]; trivial
                · exact bl kv hmem
      | ref b =>
          intro h h1 nd1 hwf hcp
          rw [copyNodeWith] at hcp
          cases hd : dc h b with
          | none => rw [hd] at hcp; cases hcp
          | some pb =>
              obtain ⟨hb, b1⟩ := pb
              simp only [hd] at hcp
              cases hr : copyNodeWith dc hb rest with
              | none => simp only [hr] at hcp; cases hcp
              | some pr =>
                  obtain ⟨h2, r2⟩ := pr
                  simp only [hr, Option.some.injEq, Prod.mk.injEq] at hcp
                  obtain ⟨hh, hn⟩ := hcp
                  subst hh
                  subst hn
                  obtain ⟨p1, hb1, hb2⟩ := Hdc h b hb b1 hwf hd
                  obtain ⟨p2, g2, bl2⟩ := ih hb h2 r2 p1.2.2.1 hr
                  refine ⟨CopyPost_trans p1 p2, ?_, ?_⟩
                  · intro kv hkv
                    rcases List.mem_cons.mp hkv with h1eq | hmem
                    · rw [h1eq]
                      exact hb1
                    · exact valGE_mono (g2 kv hmem) p1.1
                  · intro kv hkv
                    rcases List.mem_cons.mp hkv with h1eq | hmem
                    · rw [h1eq]
                      exact lt_of_lt_of_le hb2 p2.1
                    · exact bl2 kv hmem

theorem deepcopy_post : ∀ (fuel : Nat) (h : Heap) (a : Nat) (h' : Heap) (r : Nat),
    Heap.WF h → deepcopy fuel h a = some (h', r) →
    CopyPost h h' ∧ h.next ≤ r ∧ r < h'.next := by
  intro fuel
  induction fuel with
  | zero => intro h a h' r _ hd; rw [deepcopy] at hd; cases hd
  | succ fuel ih =>
      intro h a h' r hwf hd
      rw [deepcopy] at hd
      cases hl : lookupAddr h a with
      | none => rw [hl] at hd; cases hd
      | some nd =>
          simp only [hl] at hd
          cases hc : copyNodeWith (deepcopy fuel) h nd with
          | none => simp only [hc] at hd; cases hd
          | some pr =>
              obtain ⟨h1, nd1⟩ := pr
              simp only [hc, alloc, Option.some.injEq, Prod.mk.injEq] at hd
              obtain ⟨hh', hr⟩ := hd
              obtain ⟨⟨mono, ag, wf1, fr⟩, g1, bl1⟩ :=
                copyNodeWith_post (deepcopy fuel) (fun h0 a0 h0' r0 => ih h0 a0 h0' r0)
                  nd h h1 nd1 hwf hc
              subst hh'
              subst hr
              refine ⟨⟨Nat.le_succ_of_le mono, ?_, ?_, ?_⟩, mono, Nat.lt_succ_self _⟩
              · intro b hb
                show lookupAddrList ((h1.next, nd1) :: h1.mem) b = _
                rw [lookupAddrList, if_neg (by omega)]
                exact ag b hb
              · intro e he
                rcases List.mem_cons.mp he with h1eq | hmem
                · subst h1eq
                  exact ⟨Nat.lt_succ_self _, nodeRefsBelow_mono bl1 (Nat.le_succ _)⟩
                · obtain ⟨hlt, hbl⟩ := wf1 e hmem
                  exact ⟨Nat.lt_succ_of_lt hlt, nodeRefsBelow_mono hbl (Nat.le_succ _)⟩
              · intro b nd' hb hl'
                have hl'' : lookupAddrList ((h1.next, nd1) :: h1.mem) b = some nd' := hl'
                rw [lookupAddrList] at hl''
                by_cases hbn : h1.next = b
                · rw [if_pos hbn] at hl''
                  injection hl'' with hl''
                  subst hl''
                  exact ⟨g1, nodeRefsBelow_mono bl1 (Nat.le_succ _)⟩
                · rw [if_neg hbn] at hl''
                  obtain ⟨g, bl⟩ := fr b nd' hb hl''
                  exact ⟨g, nodeRefsBelow_mono bl (Nat.le_succ _)⟩

theorem setKey_below {nd : HNode} {m : Nat} {k : String} {v : ℚ}
    (hnd : nodeRefsBelow nd m) :
    nodeRefsBelow (setKey nd k (HVal.leaf v)) m := by
  intro kv hkv
  rcases mem_setKey nd k (HVal.leaf v) kv hkv with hmem | heq
  · exact hnd kv hmem
  · rw [heq]; trivial

theorem setKey_ge {nd : HNode} {m : Nat} {k : String} {v : ℚ}
    (hnd : nodeRefsGE nd m) :
    nodeRefsGE (setKey nd k (HVal.leaf v)) m := by
  intro kv hkv
  rcases mem_setKey nd k (HVal.leaf v) kv hkv with hmem | heq
  · exact hnd kv hmem
  · rw [heq]; trivial

theorem setNested_frame (n : Nat) : ∀ (p : List String) (h : Heap) (a : Nat)
    (v : ℚ) (h' : Heap), n ≤ a →
    (∀ b nd, n ≤ b → lookupAddr h b = some nd → nodeRefsGE nd n) →
    setNested h a p v = some h' →
    h'.next = h.next ∧
    (∀ b, b < n → lookupAddr h' b = lookupAddr h b) ∧
    (∀ b nd, n ≤ b → lookupAddr h' b = some nd → nodeRefsGE nd n) ∧
    (Heap.WF h → Heap.WF h') := by
  intro p
  induction p with
  | nil => intro h a v h' _ _ hs; rw [setNested] at hs; cases hs
  | cons k rest ih =>
      cases rest with
      | nil =>
          intro h a v h' han hfr hs
          rw [setNested] at hs
          cases hl : lookupAddr h a with
          | none => rw [hl] at hs; cases hs
          | some nd =>
              rw [hl] at hs
              injection hs with hs
              subst hs
              refine ⟨rfl, ?_, ?_, ?_⟩
              · intro b hb
                rw [lookupAddr_update, if_neg (by omega)]
              · intro b nd' hb hl'
                rw [lookupAddr_update] at hl'
                by_cases hba : b = a
                · rw [if_pos hba, hl] at hl'
                  simp only [Option.map_some'] at hl'
                  injection hl' with hl'
                  subst hl'
                  exact setKey_ge (hfr a nd han hl)
                · rw [if_neg hba] at hl'
                  exact hfr b nd' hb hl'
              · intro hwf
                exact WF_updateAddr hwf (setKey_below (WF_lookup_below hwf hl))
      | cons k' rest' =>
          intro h a v h' han hfr hs
          rw [setNested] at hs
          cases hl : lookupAddr h a with
          | none => rw [hl] at hs; cases hs
          | some nd =>
              simp only [hl] at hs
              cases hk : lookupKey nd k with
              | none => simp only [hk] at hs; cases hs
              | some v0 =>
                  simp only [hk] at hs
                  cases v0 with
                  | leaf q => cases hs
                  | ref b =>
                      have hgb : n ≤ b :=
                        hfr a nd han hl (k, HVal.ref b) (lookupKey_mem nd k _ hk)
                      exact ih h b v h' hgb hfr hs

theorem setAllNested_frame (n root : Nat) (hroot : n ≤ root) :
    ∀ (samples : List (List String × ℚ)) (h h' : Heap),
    (∀ b nd, n ≤ b → lookupAddr h b = some nd → nodeRefsGE nd n) →
    setAllNested root h samples = some h' →
    h'.next = h.next ∧
    (∀ b, b < n → lookupAddr h' b = lookupAddr h b) ∧
    (∀ b nd, n ≤ b → lookupAddr h' b = some nd → nodeRefsGE nd n) ∧
    (Heap.WF h → Heap.WF h') := by
  intro samples
  induction samples with
  | nil =>
      intro h h' hfr hs
      rw [setAllNested] at hs
      injection hs with hs
      subst hs
      exact ⟨rfl, fun _ _ => rfl, hfr, id⟩
  | cons sv rest ih =>
      intro h h' hfr hs
      obtain ⟨p, v⟩ := sv
      rw [setAllNested] at hs
      cases h1 : setNested h root p v with
      | none => rw [h1] at hs; cases hs
      | some hmid =>
          rw [h1] at hs
          obtain ⟨e1, a1, f1, w1⟩ := setNested_frame n p h root v hmid hroot hfr h1
          obtain ⟨e2, a2, f2, w2⟩ := ih hmid h' f1 hs
          refine ⟨by omega, ?_, f2, fun hwf => w2 (w1 hwf)⟩
          intro b hb
          rw [a2 b hb, a1 b hb]

theorem applySamplesH_post (fuel : Nat) (h : Heap) (a : Nat)
    (samples : List (List String × ℚ)) (h' : Heap) (r : Nat)
    (hwf : Heap.WF h)
    (happ : applySamplesH fuel h a samples = some (h', r)) :
    h.next ≤ h'.next ∧
    (∀ b, b < h.next → lookupAddr h' b = lookupAddr h b) ∧
    Heap.WF h' ∧ r < h'.next := by
  rw [applySamplesH] at happ
  cases hd : deepcopy fuel h a with
  | none => rw [hd] at happ; cases happ
  | some pr =>
      obtain ⟨h1, r1⟩ := pr
      simp only [hd] at happ
      cases hsa : setAllNested r1 h1 samples with
      | none => simp only [hsa] at happ; cases happ
      | some h2 =>
          simp only [hsa, Option.some.injEq, Prod.mk.injEq] at happ
          obtain ⟨hh, hr⟩ := happ
          subst hh
          subst hr
          obtain ⟨⟨mono, ag, wf1, fr⟩, hr1, hr2⟩ := deepcopy_post fuel h a h1 r1 hwf hd
          obtain ⟨e2, a2, _, w2⟩ :=
            setAllNested_frame h.next r1 hr1 samples h1 h2
              (fun b nd hb hl => (fr b nd hb hl).1) hsa
          refine ⟨by omega, ?_, w2 wf1, by omega⟩
          intro b hb
          rw [a2 b hb, ag b hb]

theorem runIterations_post (fuel a : Nat) :
    ∀ (iters : List (List (List String × ℚ))) (h hN : Heap)
      (copies : List (Heap × Nat)), Heap.WF h →
      runIterations fuel a h iters = some (hN, copies) →
      Heap.WF hN ∧ h.next ≤ hN.next ∧
      (∀ b, b < h.next → lookupAddr hN b = lookupAddr h b) ∧
      (∀ pr ∈ copies, Heap.WF pr.1 ∧ pr.2 < pr.1.next ∧
        (∀ b, b < pr.1.next → lookupAddr hN b = lookupAddr pr.1 b)) := by
  intro iters
  induction iters with
  | nil =>
      intro h hN copies hwf hr
      rw [runIterations] at hr
      simp only [Option.some.injEq, Prod.mk.injEq] at hr
      obtain ⟨hh, hc⟩ := hr
      subst hh
      subst hc
      exact ⟨hwf, le_refl _, fun _ _ => rfl, by intro pr hpr; simp at hpr⟩
  | cons s rest ih =>
      intro h hN copies hwf hr
      rw [runIterations] at hr
      cases happ : applySamplesH fuel h a s with
      | none => rw [happ] at hr; cases hr
      | some pr0 =>
          obtain ⟨h1, r⟩ := pr0
          simp only [happ] at hr
          cases hrest : runIterations fuel a h1 rest with
          | none => simp only [hrest] at hr; cases hr
          | some prN =>
              obtain ⟨hN', copies'⟩ := prN
              simp only [hrest, Option.some.injEq, Prod.mk.injEq] at hr
              obtain ⟨hh, hc⟩ := hr
              subst hh
              subst hc
              obtain ⟨m1, ag1, wf1, hr1⟩ :=
                applySamplesH_post fuel h a s h1 r hwf happ
              obtain ⟨wfN, mN, agN, hcop⟩ := ih h1 hN' copies' wf1 hrest
              refine ⟨wfN, by omega, ?_, ?_⟩
              · intro b hb
                rw [agN b (by omega), ag1 b hb]
              · intro pr hpr
                rcases List.mem_cons.mp hpr with h1eq | hmem
                · subst h1eq
                  exact ⟨wf1, hr1, fun b hb => agN b hb⟩
                · exact hcop pr hmem

/-- Claim C7: applying sampled parameter values produces an isolated
per-iteration deep copy.  For every well-formed base heap, base root and
sequence of Monte Carlo iterations (each deep-copying the base
configuration and mutating its own copy at its sampled parameter paths):
the base configuration reads identically at every path after all
iterations (no leaf of it is ever changed), and each iteration's copy
reads identically at every path in the final heap and in the heap just
after that iteration (no copy is affected by another iteration's
mutations). -/
theorem mc_apply_samples_isolation (fuel : Nat) (h : Heap) (a : Nat)
    (iters : List (List (List String × ℚ))) (hN : Heap)
    (copies : List (Heap × Nat)) (hwf : Heap.WF h) (ha : a < h.next)
    (hrun : runIterations fuel a h iters = some (hN, copies)) :
    (∀ p, getNested hN a p = getNested h a p) ∧
    (∀ pr ∈ copies, ∀ p, getNested hN pr.2 p = getNested pr.1 pr.2 p) := by
  obtain ⟨wfN, mono, ag, hcop⟩ :=
    runIterations_post fuel a iters h hN copies hwf hrun
  constructor
  · intro p
    exact walkVal_agree h.next p h hN (HVal.ref a) ag
      (fun b nd hb hl => WF_lookup_below hwf hl) ha
  · intro pr hpr p
    obtain ⟨wfi, hri, agi⟩ := hcop pr hpr
    exact walkVal_agree pr.1.next p pr.1 hN (HVal.ref pr.2) agi
      (fun b nd hb hl => WF_lookup_below wfi hl) hri

/-- The base heap of the witness: the configuration \x7b"g": \x7b"v": 1\x7d\x7d
with root at address 0. -/
def hW : Heap := ⟨[(0, [("g", HVal.ref 1)]), (1, [("v", HVal.leaf 1)])], 2⟩

/-- Two Monte Carlo iterations, sampling 2 then 3 for the path ["g","v"]. -/
def itersW : List (List (List String × ℚ)) := [[(["g", "v"], 2)], [(["g", "v"], 3)]]

/-- The heap after the first witness iteration (copy rooted at 3). -/
def h1W : Heap :=
  ⟨[(3, [("g", HVal.ref 2)]), (2, [("v", HVal.leaf 2)]),
    (0, [("g", HVal.ref 1)]), (1, [("v", HVal.leaf 1)])], 4⟩

/-- The final heap after both witness iterations (second copy rooted at 5). -/
def hNW : Heap :=
  ⟨[(5, [("g", HVal.ref 4)]), (4, [("v", HVal.leaf 3)]),
    (3, [("g", HVal.ref 2)]), (2, [("v", HVal.leaf 2)]),
    (0, [("g", HVal.ref 1)]), (1, [("v", HVal.leaf 1)])], 6⟩

/-- Witness: the C7 theorem on base \x7b"g": \x7b"v": 1\x7d\x7d with two
iterations writing 2 then 3 at ["g","v"] — the base still reads its
original value and iteration 1's copy is unaffected by iteration 2. -/
theorem mc_apply_samples_isolation_witness :
    getNested hNW 0 ["g", "v"] = getNested hW 0 ["g", "v"] ∧
      getNested hNW 3 ["g", "v"] = getNested h1W 3 ["g", "v"] := by
  have h := mc_apply_samples_isolation 3 hW 0 itersW hNW [(h1W, 3), (hNW, 5)]
    (by decide) (by decide) rfl
  exact ⟨h.1 ["g", "v"], h.2 (h1W, 3) (by simp) ["g", "v"]⟩

end Dragonwind
